import Mathlib

/-!
Verification development for the blob-cli interactive archive browser.

This file shallowly embeds the core of the repository:
* the path normalizer and directory synthesizer (`internal/archive`),
* the binary classifier (`internal/tui/detect`),
* the file-tree, preview, copy-dialog and status-bar components and the
  top-level `open` TUI state machine (`internal/tui/...`).

Go strings are modelled through their character lists (`String.data`);
Go byte slices as `List Nat`; Go `int` as `Int`.  Asynchronous
`tea.Cmd` closures are modelled as symbolic task descriptors
(`Cmd.fetchFile`, `Cmd.copyFile`, ...) together with explicit run
functions (`runFetchFile`, `runCopyFile`) that give the closures'
semantics relative to abstract read/write collaborators.
-/

namespace BlobCli

/-! ## Path cleaning (Go `path.Clean`, used by `normalizePath`)

`path.Clean` is the Go standard library's lexical path canonicalizer.
We embed it segment-wise: split on `'/'`, drop empty and `"."` segments,
resolve `".."` against the already-emitted segments (a rooted path drops
unmatched `".."`, an unrooted path accumulates them in front), and
re-join.  This is the documented algorithm of `path.Clean`. -/

/-- Split a character list on `'/'` (accumulator holds the current
segment reversed). -/
def splitSlashAux (cur : List Char) : List Char → List (List Char)
  | [] => [cur.reverse]
  | c :: rest =>
    if c = '/' then cur.reverse :: splitSlashAux [] rest
    else splitSlashAux (c :: cur) rest

/-- Split a character list on `'/'`. -/
def splitSlash (l : List Char) : List (List Char) :=
  splitSlashAux [] l

/-- Join segments with `'/'`. -/
def joinSlash : List (List Char) → List Char
  | [] => []
  | [s] => s
  | s :: s' :: ss => s ++ '/' :: joinSlash (s' :: ss)

/-- The `".."` segment. -/
def ddSeg : List Char := ['.', '.']

/-- One `".."` resolution step on the emitted segments (held in
reverse): a rooted path drops an unmatched `".."`; an unrooted path
keeps it; otherwise the last emitted segment is popped. -/
def ddStep (rooted : Bool) (acc : List (List Char)) : List (List Char) :=
  match acc with
  | [] => if rooted then [] else [ddSeg]
  | top :: accTl => if ¬rooted ∧ top = ddSeg then ddSeg :: top :: accTl else accTl

/-- Resolve the cleaned segments: skip empty and `"."`, resolve `".."`
via `ddStep`, emit everything else.  `acc` holds emitted segments in
reverse. -/
def cleanSegs (rooted : Bool) : List (List Char) → List (List Char) → List (List Char)
  | acc, [] => acc.reverse
  | acc, seg :: rest =>
    if seg = [] ∨ seg = ['.'] then cleanSegs rooted acc rest
    else if seg = ddSeg then cleanSegs rooted (ddStep rooted acc) rest
    else cleanSegs rooted (seg :: acc) rest

/-- Go `path.Clean` on character lists: an empty input cleans to `"."`;
a rooted input keeps its one leading separator (and an all-`".."`-
cancelled rooted path is `"/"`); an unrooted input whose segments all
cancel is `"."`. -/
def cleanChars (p : List Char) : List Char :=
  if p = [] then ['.']
  else if p.head? = some '/' then
    (if cleanSegs true [] (splitSlash p) = [] then ['/']
     else '/' :: joinSlash (cleanSegs true [] (splitSlash p)))
  else
    (if cleanSegs false [] (splitSlash p) = [] then ['.']
     else joinSlash (cleanSegs false [] (splitSlash p)))

/-- Go `strings.TrimPrefix(_, "/")`: drop one leading separator. -/
def trimLeadSlash (c : List Char) : List Char :=
  if c.head? = some '/' then c.tail else c

/-- Go `strings.TrimSuffix(_, "/")`: drop one trailing separator. -/
def trimTrailSlash (c : List Char) : List Char :=
  if c.getLast? = some '/' then c.dropLast else c

/-- `normalizePath` body on character lists (source:
`internal/archive` `normalizePath`): special-case `""`/`"."`/`"/"`,
then `path.Clean`, then `strings.TrimPrefix(_, "/")`,
`strings.TrimSuffix(_, "/")`, and a final `"."` check. -/
def normalizeChars (p : List Char) : List Char :=
  if p = [] ∨ p = ['.'] ∨ p = ['/'] then []
  else if trimTrailSlash (trimLeadSlash (cleanChars p)) = ['.'] then []
  else trimTrailSlash (trimLeadSlash (cleanChars p))

/-- Source: `internal/archive` `normalizePath`. -/
def normalizePath (p : String) : String :=
  ⟨normalizeChars p.data⟩

/-! ## String helpers used by the directory synthesizer -/

/-- Go `strings.TrimPrefix`: drop `pre` from the front of `s` when it is
a prefix, otherwise return `s` unchanged. -/
def trimPrefixStr (s pre : String) : String :=
  if pre.data.isPrefixOf s.data then ⟨s.data.drop pre.data.length⟩ else s

/-- Characters of the first path component: everything before the first
`'/'` (Go `relPath[:strings.Index(relPath, "/")]`). -/
def takeUntilSlash : List Char → List Char
  | [] => []
  | c :: rest => if c = '/' then [] else c :: takeUntilSlash rest

/-- Byte-wise (code-point-wise) string order, matching Go
`cmp.Compare` on strings (UTF-8 byte order equals code-point order). -/
def charListLe : List Char → List Char → Bool
  | [], _ => true
  | _ :: _, [] => false
  | a :: as, b :: bs =>
    if a.toNat < b.toNat then true
    else if b.toNat < a.toNat then false
    else charListLe as bs

/-- String order used by the listing sorts. -/
def strLe (a b : String) : Bool :=
  charListLe a.data b.data

/-! ## Directory synthesizer (source: `internal/archive`, `ListDir`) -/

/-- One real file record of the archive index, as exposed by the
external `blob.IndexView` iterator (path, mode, original size, modification
time, hash bytes). -/
structure IndexEntry where
  path : String
  mode : Nat
  originalSize : Nat
  modTime : Nat
  hashBytes : List Nat
deriving DecidableEq

/-- A listed child: a real file or a synthesized directory.  Source:
`internal/archive` `DirEntry` (the `Children` field is populated only by
`BuildTree`, which is not needed here). -/
structure DirEntry where
  Name : String
  Path : String
  IsDir : Bool
  Mode : Nat
  Size : Nat
  ModTime : Nat
  Hash : List Nat
deriving DecidableEq

/-- Go `fs.ModeDir`. -/
def fsModeDir : Nat := 2147483648

/-- Models the external index reader's prefix scan
(`IndexView.EntriesWithPrefix`, §6 of the design: yield exactly the
entries whose path starts with the prefix, in index order). -/
def entriesWithPref (index : List IndexEntry) (pre : String) : List IndexEntry :=
  index.filter (fun e => pre.data.isPrefixOf e.path.data)

/-- The first path component of the relative path: the text before the
first separator, or the whole path when no separator remains. -/
def childNameOf (relPath : String) : String :=
  if relPath.data.contains '/' then ⟨takeUntilSlash relPath.data⟩ else relPath

/-- The node recorded for a child: a synthesized directory when a
separator remains (fixed mode `fs.ModeDir | 0o755`, no size/time/hash),
otherwise a file node copying the entry's metadata. -/
def childNodeOf (dirPath : String) (e : IndexEntry) (relPath : String) : DirEntry :=
  if relPath.data.contains '/' then
    { Name := childNameOf relPath
      Path := if dirPath = "" then childNameOf relPath else dirPath ++ "/" ++ childNameOf relPath
      IsDir := true
      Mode := fsModeDir + 493
      Size := 0, ModTime := 0, Hash := [] }
  else
    { Name := childNameOf relPath, Path := e.path, IsDir := false
      Mode := e.mode, Size := e.originalSize
      ModTime := e.modTime, Hash := e.hashBytes }

/-- The per-entry loop of `ListDir`: compute the relative path, take its
first component as the child name, skip names already seen, and record a
file node (no further separator) or a synthesized directory node.
`seen` is the Go map, modelled as an association list keyed by name
(insertion order; the result is sorted afterwards, so the map's
unspecified iteration order does not matter). -/
def listDirLoop (dirPath prefixStr : String) :
    List IndexEntry → List (String × DirEntry) → List (String × DirEntry)
  | [], seen => seen
  | e :: rest, seen =>
    let relPath := trimPrefixStr e.path prefixStr
    if relPath = "" then listDirLoop dirPath prefixStr rest seen
    else if seen.any (fun p => p.1 = childNameOf relPath) then
      listDirLoop dirPath prefixStr rest seen
    else
      listDirLoop dirPath prefixStr rest
        (seen ++ [(childNameOf relPath, childNodeOf dirPath e relPath)])

/-- Alphabetical-by-name order on listing nodes. -/
def nameLe (a b : DirEntry) : Prop := strLe a.Name b.Name = true

instance : DecidableRel nameLe := fun a b => by
  unfold nameLe; infer_instance

/-- Source: `internal/archive` `ListDir` (it always returns a nil
error, so the embedding returns the listing directly).  The Go code
iterates the `seen` map in unspecified order and then sorts; names are
unique keys, so sorting the insertion-order values yields the same
list. -/
def listDir (index : List IndexEntry) (dirPath : String) : List DirEntry :=
  let dirPath := normalizePath dirPath
  let prefixStr := if dirPath = "" then "" else dirPath ++ "/"
  let seen := listDirLoop dirPath prefixStr (entriesWithPref index prefixStr) []
  List.insertionSort nameLe (seen.map Prod.snd)

/-- Directories-first order (Go `SortDirsFirst` comparator). -/
def dirsFirstLe (a b : DirEntry) : Prop :=
  (a.IsDir = true ∧ b.IsDir = false) ∨ (a.IsDir = b.IsDir ∧ strLe a.Name b.Name = true)

instance : DecidableRel dirsFirstLe := fun a b => by
  unfold dirsFirstLe; infer_instance

/-- Source: `internal/archive` `SortDirsFirst` (names within a listing
are unique, so the comparison-sorted order is unique and any sorting
algorithm agrees with Go's). -/
def sortDirsFirst (l : List DirEntry) : List DirEntry :=
  List.insertionSort dirsFirstLe l

/-! ## Binary classifier (source: `internal/tui/detect`) -/

/-- Source: `maxScanSize` (8 KiB). -/
def maxScanSize : Nat := 8 * 1024

/-- Source: `isControlChar` — control bytes other than tab (9),
newline (10) and carriage return (13). -/
def isControlChar (b : Nat) : Bool :=
  (decide (b < 32) && !(b == 9) && !(b == 10) && !(b == 13)) || b == 127

/-- One step of Go `unicode/utf8.Valid`: given the first byte `b` and
the remaining bytes, consume one well-formed encoded code point and
return the remainder, or fail.  The second-byte ranges follow Go's
`acceptRanges` table (restricted for 0xE0/0xED/0xF0/0xF4: no overlong
forms, no surrogates, nothing above U+10FFFF); continuation bytes are
0x80–0xBF. -/
def utf8Step1 (b : Nat) (rest : List Nat) : Option (List Nat) :=
  if b < 128 then some rest
  else if b < 194 then none
  else if b ≤ 223 then
    match rest with
    | b1 :: rest1 => if 128 ≤ b1 ∧ b1 ≤ 191 then some rest1 else none
    | [] => none
  else if b ≤ 239 then
    match rest with
    | b1 :: b2 :: rest2 =>
      if ((if b = 224 then 160 else 128) ≤ b1 ∧ b1 ≤ (if b = 237 then 159 else 191))
          ∧ (128 ≤ b2 ∧ b2 ≤ 191) then some rest2
      else none
    | _ => none
  else if b ≤ 244 then
    match rest with
    | b1 :: b2 :: b3 :: rest3 =>
      if ((if b = 240 then 144 else 128) ≤ b1 ∧ b1 ≤ (if b = 244 then 143 else 191))
          ∧ (128 ≤ b2 ∧ b2 ≤ 191) ∧ (128 ≤ b3 ∧ b3 ≤ 191) then some rest3
      else none
    | _ => none
  else none

/-- The `utf8.Valid` loop; each step consumes at least one byte, so the
list's length bounds the number of steps. -/
def utf8ValidFuel : Nat → List Nat → Bool
  | 0, l => l.isEmpty
  | _ + 1, [] => true
  | fuel + 1, b :: rest =>
    match utf8Step1 b rest with
    | some rest1 => utf8ValidFuel fuel rest1
    | none => false

/-- Go `unicode/utf8.Valid`. -/
def utf8Valid (l : List Nat) : Bool := utf8ValidFuel l.length l

/-- The scanned sample: the first `min len 8192` bytes. -/
def sampleOf (content : List Nat) : List Nat :=
  content.take (min content.length maxScanSize)

/-- Number of binary-indicating control bytes in a sample. -/
def controlCountOf (l : List Nat) : Nat :=
  (l.filter isControlChar).length

/-- Source: `detect.IsBinary` — empty content is text; a null byte or
invalid UTF-8 in the sample means binary; otherwise binary iff the
control-character count exceeds a tenth (integer division) of the
sample length. -/
def IsBinary (content : List Nat) : Bool :=
  if content.length = 0 then false
  else
    let sample := sampleOf content
    if sample.contains 0 then true
    else if ¬utf8Valid sample then true
    else decide (controlCountOf sample > sample.length / 10)

/-! ## File tree component (source: `internal/tui/components/filetree`) -/

/-- Navigation history frame (`historyEntry`). -/
structure HistoryEntry where
  dir : String
  cursor : Int
  offset : Int
deriving DecidableEq

/-- `filetree.Model`.  The stack top is the *last* list element,
matching Go's append/pop-from-the-end slice usage. -/
structure FileTree where
  index : List IndexEntry
  currentDir : String
  entries : List DirEntry
  cursor : Int
  offset : Int
  width : Int
  height : Int
  focused : Bool
  history : List HistoryEntry
deriving DecidableEq

/-- `visibleLines`: height minus borders, header and separator. -/
def visibleLinesOf (m : FileTree) : Int := m.height - 6

/-- `adjustScroll`: no-op when no lines are visible; otherwise scroll up
to the cursor, then down so the cursor is inside the window. -/
def adjustScroll (m : FileTree) : FileTree :=
  if visibleLinesOf m ≤ 0 then m
  else
    let m := if m.cursor < m.offset then { m with offset := m.cursor } else m
    if m.cursor ≥ m.offset + visibleLinesOf m then
      { m with offset := m.cursor - visibleLinesOf m + 1 }
    else m

/-- `loadDir`: set the directory, reset cursor and offset, list it and
sort directories first (`ListDir` never returns an error, so the Go
error branch is dead). -/
def ftLoadDir (m : FileTree) (dir : String) : FileTree :=
  { m with currentDir := dir, cursor := 0, offset := 0,
           entries := sortDirsFirst (listDir m.index dir) }

/-- `filetree.New`: empty model, then `loadDir ""`. -/
def ftNew (index : List IndexEntry) : FileTree :=
  ftLoadDir
    { index := index, currentDir := "", entries := [], cursor := 0, offset := 0,
      width := 0, height := 0, focused := false, history := [] } ""

/-- `SetSize`. -/
def ftSetSize (m : FileTree) (w h : Int) : FileTree :=
  adjustScroll { m with width := w, height := h }

/-- `SetFocused`. -/
def ftSetFocused (m : FileTree) (f : Bool) : FileTree :=
  { m with focused := f }

/-- `Selected`: the entry under the cursor, or none when the listing is
empty.  (For reachable states the cursor is always in range; Go's
out-of-range panic is modelled as no selection.) -/
def ftSelected (m : FileTree) : Option DirEntry :=
  if m.entries.length = 0 then none else m.entries[m.cursor.toNat]?

/-- `CursorUp`. -/
def ftCursorUp (m : FileTree) : FileTree :=
  if m.cursor > 0 then adjustScroll { m with cursor := m.cursor - 1 } else m

/-- `CursorDown`. -/
def ftCursorDown (m : FileTree) : FileTree :=
  if m.cursor < (m.entries.length : Int) - 1 then
    adjustScroll { m with cursor := m.cursor + 1 }
  else m

/-- `Enter`: on a directory, push the current frame and load the child
(returns true); on a file or an empty listing, return false without
touching any state. -/
def ftEnter (m : FileTree) : FileTree × Bool :=
  match ftSelected m with
  | none => (m, false)
  | some e =>
    if e.IsDir then
      (ftLoadDir
        { m with history := m.history ++ [⟨m.currentDir, m.cursor, m.offset⟩] } e.Path,
       true)
    else (m, false)

/-- `parentPath`: everything before the last `'/'`; `""` when there is
no separator or the path is empty. -/
def parentPath (p : String) : String :=
  if p = "" then ""
  else if p.data.contains '/' then
    ⟨((p.data.reverse.dropWhile (· ≠ '/')).drop 1).reverse⟩
  else ""

/-- `Back`: pop and restore the most recent history frame exactly
(re-listing its directory); with empty history move to the structural
parent; false only at the root with empty history. -/
def ftBack (m : FileTree) : FileTree × Bool :=
  match m.history.getLast? with
  | some h =>
    (adjustScroll
      { ftLoadDir { m with history := m.history.dropLast } h.dir with
          cursor := h.cursor, offset := h.offset },
     true)
  | none =>
    if m.currentDir = "" then (m, false)
    else (ftLoadDir m (parentPath m.currentDir), true)

/-! ## Preview component (source: `internal/tui/components/preview`)

The `viewport` sub-component (a pure rendering buffer of the external
widget library) is omitted; the retained fields are the machine state
the design document describes. -/

/-- `preview.State`. -/
inductive PState where
  | none
  | loading
  | text
  | binary
  | error
  | dir
  | tooLarge
deriving DecidableEq

/-- `preview.MaxPreviewBytes` (512 KiB). -/
def MaxPreviewBytes : Nat := 512 * 1024

/-- `preview.Model` (viewport omitted). -/
structure Preview where
  state : PState
  path : String
  language : String
  errMsg : String
  width : Int
  height : Int
  focused : Bool
  ready : Bool
deriving DecidableEq

/-- `preview.New`. -/
def pvNew : Preview :=
  { state := .none, path := "", language := "", errMsg := ""
    width := 0, height := 0, focused := false, ready := false }

/-- `SetSize` (viewport geometry omitted). -/
def pvSetSize (m : Preview) (w h : Int) : Preview :=
  { m with width := w, height := h, ready := true }

/-- `SetFocused`. -/
def pvSetFocused (m : Preview) (f : Bool) : Preview :=
  { m with focused := f }

/-- `SetLoading`. -/
def pvSetLoading (m : Preview) (path : String) : Preview :=
  { m with state := .loading, path := path, language := "", errMsg := "" }

/-- `SetContent`: binary content keeps the previous `language` field
(the Go binary branch does not reset it); text content records the
detected language.  `getLang` abstracts the external `GetLanguage`
lexer lookup (chroma library). -/
def pvSetContent (getLang : String → String) (m : Preview) (path : String)
    (_content : List Nat) (isBinary : Bool) : Preview :=
  if isBinary then { m with state := .binary, path := path, errMsg := "" }
  else { m with state := .text, path := path, errMsg := "", language := getLang path }

/-- `SetError`. -/
def pvSetError (m : Preview) (path errS : String) : Preview :=
  { m with state := .error, path := path, language := "", errMsg := errS }

/-- `SetDir`. -/
def pvSetDir (m : Preview) (path : String) : Preview :=
  { m with state := .dir, path := path, language := "", errMsg := "" }

/-- `SetTooLarge` (the size argument is only rendered, not stored). -/
def pvSetTooLarge (m : Preview) (path : String) (_size : Nat) : Preview :=
  { m with state := .tooLarge, path := path, language := "", errMsg := "" }

/-- `SetNone`. -/
def pvSetNone (m : Preview) : Preview :=
  { m with state := .none, path := "", language := "", errMsg := "" }

/-! ## Messages and commands (source: `internal/tui/open`)

`tea.Cmd` closures are modelled as symbolic descriptors; `runFetchFile`
and `runCopyFile` below give the two asynchronous closures' semantics. -/

/-- The message union consumed by the `open` model. -/
inductive Msg where
  | windowSize (w h : Int)
  | key (k : String)
  | archiveLoaded (index : List IndexEntry)
  | archiveError (err : String)
  | fileContent (path : String) (content : List Nat) (isBinary : Bool)
  | fileError (path err : String)
  | copyComplete (src dest : String)
  | copyError (src dest err : String)
  | clearMessage
  | spinnerTick
deriving DecidableEq

/-- Symbolic `tea.Cmd` values. -/
inductive Cmd where
  | none
  | quit
  | tick
  | blink
  | fetchFile (path : String)
  | copyFile (src dest : String)
  | scheduleClear
  | batch (cmds : List Cmd)

/-- Whether a command is the nil command. -/
def isNoneCmd : Cmd → Bool
  | .none => true
  | _ => false

/-- `tea.Batch`: nil commands are dropped; zero remaining commands is
no command, one remaining command is itself. -/
def batchCmds (cmds : List Cmd) : Cmd :=
  match cmds.filter (fun c => !isNoneCmd c) with
  | [] => .none
  | [c] => c
  | cs => .batch cs

/-! ## Copy dialog (source: `internal/tui/components/copydialog`) -/

/-- Modelled from the spec: the destination input is an editable text
buffer provided by the external `textinput` widget (§3
`CopyDialogState.destinationInput`); when focused, a printable key
appends (up to the character limit) and backspace deletes the last
character; an unfocused input ignores keys. -/
structure TextInput where
  value : String
  focused : Bool
  charLimit : Nat
deriving DecidableEq

/-- Key handling of the external text-input widget (see `TextInput`). -/
def tiUpdate (ti : TextInput) (k : String) : TextInput :=
  if ¬ti.focused then ti
  else if k = "backspace" then { ti with value := ⟨ti.value.data.dropLast⟩ }
  else if k.data.length = 1 ∧ ti.value.data.length < ti.charLimit then
    { ti with value := ti.value ++ k }
  else ti

/-- Go `filepath.Base` (unix): strip trailing separators, then keep the
last path component; `"."` for empty input, `"/"` for all-separators. -/
def filepathBase (p : String) : String :=
  if p = "" then "."
  else
    let l := (p.data.reverse.dropWhile (· = '/')).reverse
    if l = [] then "/"
    else ⟨(l.reverse.takeWhile (· ≠ '/')).reverse⟩

/-- `copydialog.Model`. -/
structure CopyDialog where
  input : TextInput
  sourcePath : String
  visible : Bool
  width : Int
  height : Int
deriving DecidableEq

/-- The zero value of `copydialog.Model` (fields of a fresh `open.Model`
before the archive loads). -/
def cdZero : CopyDialog :=
  { input := { value := "", focused := false, charLimit := 0 }
    sourcePath := "", visible := false, width := 0, height := 0 }

/-- `copydialog.New` (placeholder and display width omitted). -/
def cdNew : CopyDialog :=
  { input := { value := "", focused := false, charLimit := 256 }
    sourcePath := "", visible := false, width := 0, height := 0 }

/-- `Show`: record the source, become visible, pre-fill the input with
the base name and focus it. -/
def cdShow (m : CopyDialog) (src : String) : CopyDialog :=
  { m with sourcePath := src, visible := true,
           input := { m.input with value := filepathBase src, focused := true } }

/-- `Hide`. -/
def cdHide (m : CopyDialog) : CopyDialog :=
  { m with visible := false, input := { m.input with focused := false } }

/-- `SetSize` (input display width omitted). -/
def cdSetSize (m : CopyDialog) (w h : Int) : CopyDialog :=
  { m with width := w, height := h }

/-- `copydialog.Update`: invisible dialogs ignore messages; otherwise
key messages go to the text input. -/
def cdUpdate (m : CopyDialog) (msg : Msg) : CopyDialog × Cmd :=
  if ¬m.visible then (m, .none)
  else
    match msg with
    | .key k => ({ m with input := tiUpdate m.input k }, .none)
    | _ => (m, .none)

/-! ## Status bar (source: `internal/tui/components/statusbar`)

The wall-clock expiry timestamp (`messageExp`, compared against
`time.Now`) is real time and is omitted; `sbClearMessage` models the
scheduled clear that fires after the expiry duration. -/

/-- `statusbar.Model` (expiry timestamp omitted). -/
structure StatusBar where
  ref : String
  path : String
  entryCount : Int
  message : String
  isError : Bool
  width : Int
  selectedName : String
  selectedSize : Nat
  selectedTime : Nat
  selectedIsDir : Bool
  hasSelection : Bool
deriving DecidableEq

/-- `statusbar.New`. -/
def sbNew (ref : String) : StatusBar :=
  { ref := ref, path := "", entryCount := 0, message := "", isError := false
    width := 0, selectedName := "", selectedSize := 0, selectedTime := 0
    selectedIsDir := false, hasSelection := false }

/-- `SetPath`. -/
def sbSetPath (m : StatusBar) (p : String) : StatusBar := { m with path := p }

/-- `SetEntryCount`. -/
def sbSetEntryCount (m : StatusBar) (n : Int) : StatusBar := { m with entryCount := n }

/-- `SetMessage`. -/
def sbSetMessage (m : StatusBar) (msg : String) : StatusBar :=
  { m with message := msg, isError := false }

/-- `SetError`. -/
def sbSetError (m : StatusBar) (e : String) : StatusBar :=
  { m with message := e, isError := true }

/-- `SetWidth`. -/
def sbSetWidth (m : StatusBar) (w : Int) : StatusBar := { m with width := w }

/-- `SetSelectedFile`. -/
def sbSetSelectedFile (m : StatusBar) (name : String) (size : Nat) (modTime : Nat)
    (isDir : Bool) : StatusBar :=
  { m with selectedName := name, selectedSize := size, selectedTime := modTime
           selectedIsDir := isDir, hasSelection := true }

/-- `ClearSelection`. -/
def sbClearSelection (m : StatusBar) : StatusBar :=
  { m with hasSelection := false, selectedName := "" }

/-- The `ClearMessageMsg` handler (`ClearMessage`, with the wall-clock
expiry guard elided: the scheduled clear fires exactly at expiry). -/
def sbClearMessage (m : StatusBar) : StatusBar :=
  { m with message := "", isError := false }

/-! ## Key bindings (source: `internal/tui/open` `keyMap`) -/

/-- `key.Matches`: the key's string is one of the binding's keys. -/
def keyMatches (k : String) (binding : List String) : Bool :=
  binding.contains k

def keysUp : List String := ["up"]
def keysDown : List String := ["down"]
def keysLeft : List String := ["left", "backspace"]
def keysRight : List String := ["right"]
def keysEnter : List String := ["enter"]
def keysTab : List String := ["tab"]
def keysCopy : List String := ["c"]
def keysQuit : List String := ["q"]
def keysEscape : List String := ["esc"]
def keysHelp : List String := ["?"]

/-! ## Root navigation engine (source: `internal/tui/open`)

The spinner, help widget and styles (pure rendering) and the archive
handle (captured only inside command closures) are omitted from the
model; `getLang` abstracts the external language lookup used by
`preview.SetContent`. -/

/-- Top-level TUI state. -/
inductive OState where
  | loading
  | ready
  | error
deriving DecidableEq

/-- Which pane has focus. -/
inductive Focus where
  | tree
  | preview
deriving DecidableEq

/-- `open.Model`. -/
structure OModel where
  state : OState
  loadErr : Option String
  ref : String
  index : List IndexEntry
  tree : FileTree
  preview : Preview
  copyDialog : CopyDialog
  statusBar : StatusBar
  focus : Focus
  showHelp : Bool
  width : Int
  height : Int
  ready : Bool
deriving DecidableEq

/-- The zero value of `filetree.Model` (before the archive loads). -/
def ftZero : FileTree :=
  { index := [], currentDir := "", entries := [], cursor := 0, offset := 0,
    width := 0, height := 0, focused := false, history := [] }

/-- `open.New`: loading state, everything else zero. -/
def openNew (ref : String) : OModel :=
  { state := .loading, loadErr := none, ref := ref, index := []
    tree := ftZero, preview := pvNew, copyDialog := cdZero, statusBar := sbNew ""
    focus := .tree, showHelp := false, width := 0, height := 0, ready := false }

/-- `handleResize`: record dimensions, compute the 40/60 split and the
content height, and push sizes and the path/entry-count into the
components. -/
def handleResize (m : OModel) (w h : Int) : OModel × Cmd :=
  let m := { m with width := w, height := h, ready := true }
  let treeWidth := (m.width * 40).tdiv 100
  let previewWidth := m.width - treeWidth
  let contentHeight := m.height - 1
  let m :=
    { m with tree := ftSetSize m.tree treeWidth contentHeight
             preview := pvSetSize m.preview previewWidth contentHeight
             copyDialog := cdSetSize m.copyDialog m.width m.height
             statusBar := sbSetWidth m.statusBar m.width }
  let sb := sbSetEntryCount (sbSetPath m.statusBar m.tree.currentDir) (m.tree.entries.length : Int)
  let m := { m with statusBar := sb }
  (m, .none)

/-- `updateSelectionStatus` (pointer receiver in Go: the mutation is
visible to the caller). -/
def updateSelectionStatus (m : OModel) : OModel :=
  match ftSelected m.tree with
  | none => { m with statusBar := sbClearSelection m.statusBar }
  | some e =>
    { m with statusBar := sbSetSelectedFile m.statusBar e.Name e.Size e.ModTime e.IsDir }

/-- `updateStatusBar` (pointer receiver in Go). -/
def updateStatusBar (m : OModel) : OModel :=
  let sb := sbSetEntryCount (sbSetPath m.statusBar m.tree.currentDir) (m.tree.entries.length : Int)
  { m with statusBar := sb }

/-- `loadSelectedPreview`.  The Go method has a **value receiver**: its
preview mutations act on the method's local copy of the model and the
callers receive only the returned command.  The first component below
is that local copy; every caller discards it, mirroring Go's value
semantics. -/
def loadSelectedPreview (m : OModel) : OModel × Cmd :=
  match ftSelected m.tree with
  | none => ({ m with preview := pvSetNone m.preview }, .none)
  | some sel =>
    if sel.IsDir then ({ m with preview := pvSetDir m.preview sel.Path }, .none)
    else if sel.Size > MaxPreviewBytes then
      ({ m with preview := pvSetTooLarge m.preview sel.Path sel.Size }, .none)
    else
      ({ m with preview := pvSetLoading m.preview sel.Path }, .fetchFile sel.Path)

/-- `handleTreeKeys`. -/
def handleTreeKeys (m : OModel) (k : String) : OModel × Cmd :=
  if keyMatches k keysUp then
    let m := updateSelectionStatus { m with tree := ftCursorUp m.tree }
    (m, (loadSelectedPreview m).2)
  else if keyMatches k keysDown then
    let m := updateSelectionStatus { m with tree := ftCursorDown m.tree }
    (m, (loadSelectedPreview m).2)
  else if keyMatches k keysLeft then
    let r := ftBack m.tree
    let m := { m with tree := r.1 }
    if r.2 then
      let m := updateSelectionStatus (updateStatusBar m)
      (m, (loadSelectedPreview m).2)
    else (m, .none)
  else if keyMatches k keysRight ∨ keyMatches k keysEnter then
    let r := ftEnter m.tree
    let m := { m with tree := r.1 }
    if r.2 then
      let m := updateSelectionStatus (updateStatusBar m)
      (m, (loadSelectedPreview m).2)
    else
      let m := updateSelectionStatus m
      (m, (loadSelectedPreview m).2)
  else (m, .none)

/-- `preview.Update` (viewport scrolling is display-only and omitted;
no command is produced). -/
def pvUpdate (m : Preview) (_msg : Msg) : Preview × Cmd :=
  (m, .none)

/-- `handlePreviewKeys`: forward to the preview viewport. -/
def handlePreviewKeys (m : OModel) (k : String) : OModel × Cmd :=
  let r := pvUpdate m.preview (.key k)
  ({ m with preview := r.1 }, r.2)

/-- `toggleFocus`. -/
def toggleFocus (m : OModel) : OModel :=
  if m.focus = .tree then
    { m with
        focus := .preview
        tree := ftSetFocused m.tree false
        preview := pvSetFocused m.preview true }
  else
    { m with
        focus := .tree
        tree := ftSetFocused m.tree true
        preview := pvSetFocused m.preview false }

/-- `startCopy`: only a selected file opens the dialog; otherwise a
transient status message. -/
def startCopy (m : OModel) : OModel × Cmd :=
  match ftSelected m.tree with
  | none =>
    ({ m with statusBar := sbSetMessage m.statusBar "Select a file to copy" },
     .scheduleClear)
  | some sel =>
    if sel.IsDir then
      ({ m with statusBar := sbSetMessage m.statusBar "Select a file to copy" },
       .scheduleClear)
    else ({ m with copyDialog := cdShow m.copyDialog sel.Path }, .none)

/-- `executeCopy`: an empty destination surfaces a transient status
message (dialog untouched); otherwise the fetch-then-write task is
issued and the model — including the still-visible dialog — is returned
unchanged. -/
def executeCopy (m : OModel) : OModel × Cmd :=
  let sourcePath := m.copyDialog.sourcePath
  let destPath := m.copyDialog.input.value
  if destPath = "" then
    ({ m with statusBar := sbSetMessage m.statusBar "Destination path required" },
     .scheduleClear)
  else (m, .copyFile sourcePath destPath)

/-- `handleCopyDialogKeys`: escape cancels, enter confirms, everything
else goes to the text input. -/
def handleCopyDialogKeys (m : OModel) (k : String) : OModel × Cmd :=
  if keyMatches k keysEscape then ({ m with copyDialog := cdHide m.copyDialog }, .none)
  else if keyMatches k keysEnter then executeCopy m
  else
    let r := cdUpdate m.copyDialog (.key k)
    ({ m with copyDialog := r.1 }, r.2)

/-- `handleKeys`: global bindings first, then the focused component. -/
def handleKeys (m : OModel) (k : String) : OModel × Cmd :=
  if keyMatches k keysQuit then (m, .quit)
  else if keyMatches k keysEscape then
    if m.showHelp then ({ m with showHelp := false }, .none) else (m, .quit)
  else if keyMatches k keysHelp then ({ m with showHelp := !m.showHelp }, .none)
  else if keyMatches k keysTab then (toggleFocus m, .none)
  else if keyMatches k keysCopy then startCopy m
  else if m.focus = .tree then handleTreeKeys m k
  else handlePreviewKeys m k

/-- `updateReady`: keys go to the visible copy dialog or to
`handleKeys`; the async completion messages mutate preview, dialog and
status bar; unmatched messages are forwarded to the visible dialog and
the focused preview. -/
def updateReady (getLang : String → String) (m : OModel) (msg : Msg) : OModel × Cmd :=
  match msg with
  | .key k => if m.copyDialog.visible then handleCopyDialogKeys m k else handleKeys m k
  | .fileContent p c b =>
    ({ m with preview := pvSetContent getLang m.preview p c b }, .none)
  | .fileError p e =>
    ({ m with preview := pvSetError m.preview p e, statusBar := sbSetError m.statusBar e },
     .scheduleClear)
  | .copyComplete _ d =>
    ({ m with copyDialog := cdHide m.copyDialog
              statusBar := sbSetMessage m.statusBar ("Copied to " ++ d) },
     .scheduleClear)
  | .copyError _ _ e =>
    ({ m with copyDialog := cdHide m.copyDialog, statusBar := sbSetError m.statusBar e },
     .scheduleClear)
  | .clearMessage => ({ m with statusBar := sbClearMessage m.statusBar }, .none)
  | _ =>
    let rd :=
      if m.copyDialog.visible then
        let r := cdUpdate m.copyDialog msg
        (r.1, [r.2])
      else (m.copyDialog, [])
    let rp :=
      if m.focus = .preview then
        let r := pvUpdate m.preview msg
        (r.1, [r.2])
      else (m.preview, [])
    ({ m with copyDialog := rd.1, preview := rp.1 }, batchCmds (rd.2 ++ rp.2))

/-- `updateLoading`: escape quits; the archive-loaded message builds
the ready model (components, focus, pending resize, init commands,
initial selection status and preview command); load errors enter the
terminal error state; spinner ticks reschedule themselves. -/
def updateLoading (m : OModel) (msg : Msg) : OModel × Cmd :=
  match msg with
  | .key k => if keyMatches k keysEscape then (m, .quit) else (m, .none)
  | .archiveLoaded index =>
    let m :=
      { m with state := .ready, index := index, tree := ftNew index
               preview := pvNew, copyDialog := cdNew, statusBar := sbNew m.ref }
    let m :=
      { m with tree := ftSetFocused m.tree true, preview := pvSetFocused m.preview false }
    let rsz :=
      if m.width > 0 ∧ m.height > 0 then
        let r := handleResize m m.width m.height
        (r.1, if isNoneCmd r.2 then ([] : List Cmd) else [r.2])
      else (m, ([] : List Cmd))
    let m := rsz.1
    let cmds := rsz.2 ++ [Cmd.none, Cmd.none, Cmd.blink, Cmd.none]
    let m := updateSelectionStatus m
    let pc := (loadSelectedPreview m).2
    let cmds := if isNoneCmd pc then cmds else cmds ++ [pc]
    (m, batchCmds cmds)
  | .archiveError e => ({ m with state := .error, loadErr := some e }, .none)
  | .spinnerTick => (m, .tick)
  | _ => (m, .none)

/-- `updateError`: escape quits, everything else is ignored. -/
def updateError (m : OModel) (msg : Msg) : OModel × Cmd :=
  match msg with
  | .key k => if keyMatches k keysEscape then (m, .quit) else (m, .none)
  | _ => (m, .none)

/-- `Model.Update`: window sizes are recorded (and laid out when
ready); the global quit key works in any state; everything else is
dispatched to the per-state handler. -/
def openUpdate (getLang : String → String) (m : OModel) (msg : Msg) : OModel × Cmd :=
  match msg with
  | .windowSize w h =>
    let m := { m with width := w, height := h }
    if m.state = .ready then handleResize m w h else (m, .none)
  | .key k =>
    if keyMatches k keysQuit then (m, .quit)
    else
      match m.state with
      | .loading => updateLoading m (.key k)
      | .error => updateError m (.key k)
      | .ready => updateReady getLang m (.key k)
  | _ =>
    match m.state with
    | .loading => updateLoading m msg
    | .error => updateError m msg
    | .ready => updateReady getLang m msg

/-- Semantics of the preview-fetch closure issued by
`loadSelectedPreview`: read the file through the content fetcher,
classify it, and enqueue the completion or error message. -/
def runFetchFile (readFile : String → Except String (List Nat)) (path : String) : Msg :=
  match readFile path with
  | .error e => .fileError path e
  | .ok content => .fileContent path content (IsBinary content)

/-- Semantics of the copy closure issued by `executeCopy`: fetch the
source's full content, then write it to the destination; either step's
failure enqueues the copy-error message. -/
def runCopyFile (readFile : String → Except String (List Nat))
    (writeFile : String → List Nat → Except String Unit) (src dest : String) : Msg :=
  match readFile src with
  | .error e => .copyError src dest e
  | .ok content =>
    match writeFile dest content with
    | .error e => .copyError src dest e
    | .ok _ => .copyComplete src dest

/-! ## Concrete fixtures used by witnesses and counterexamples -/

/-- A concrete language lookup (no known languages) standing in for the
external lexer table in closed statements. -/
def glZero : String → String := fun _ => ""

/-- The §8 end-to-end entry set `{"a/b.txt", "a/c/d.txt", "root.md"}`. -/
def idx1 : List IndexEntry :=
  [ { path := "a/b.txt", mode := 420, originalSize := 5, modTime := 100, hashBytes := [1] }
  , { path := "a/c/d.txt", mode := 420, originalSize := 7, modTime := 101, hashBytes := [2] }
  , { path := "root.md", mode := 420, originalSize := 3, modTime := 102, hashBytes := [3] } ]

/-- A ready model obtained by actually delivering the archive-loaded
message to a fresh model. -/
def mReady1 : OModel :=
  (openUpdate glZero (openNew "demo") (.archiveLoaded idx1)).1

/-- A ready model whose preview is loading path `"b"`. -/
def mLoadingB : OModel :=
  { mReady1 with preview := { pvNew with state := .loading, path := "b" } }

/-- A ready model with the copy dialog open for `"docs/readme.md"`
(destination input pre-filled with `"readme.md"`). -/
def mDialog : OModel :=
  { mReady1 with copyDialog := cdShow cdNew "docs/readme.md" }

/-- `mDialog` with the destination input cleared. -/
def mDialogEmpty : OModel :=
  { mDialog with copyDialog :=
      { mDialog.copyDialog with input := { mDialog.copyDialog.input with value := "" } } }

/-- An index holding one file just over the preview size limit. -/
def idxBig : List IndexEntry :=
  [ { path := "big.bin", mode := 420, originalSize := 524289, modTime := 0, hashBytes := [] } ]

/-- A ready model browsing `idxBig` (the oversized file is selected). -/
def mBig : OModel :=
  (openUpdate glZero (openNew "demo") (.archiveLoaded idxBig)).1

/-! ## Navigation scenarios (for the history round-trip property)

A scenario is a list of levels; each level is a list of cursor moves
(`true` = down, `false` = up) followed by one `Enter`.  `navRun` plays
the scenario and fails if any `Enter` does not enter a directory;
`backNF` then presses `Back` repeatedly. -/

/-- The navigation core the history frames restore:
`{directory, cursor, scrollOffset}`. -/
def ftCore (m : FileTree) : String × Int × Int :=
  (m.currentDir, m.cursor, m.offset)

/-- One cursor move (`true` = down, `false` = up). -/
def ftMove (m : FileTree) (down : Bool) : FileTree :=
  if down then ftCursorDown m else ftCursorUp m

/-- A sequence of cursor moves. -/
def applyMoves (ms : List Bool) (m : FileTree) : FileTree :=
  ms.foldl ftMove m

/-- Play the scenario; `none` if some `Enter` selects a file or nothing. -/
def navRun (m : FileTree) : List (List Bool) → Option FileTree
  | [] => some m
  | ms :: rest =>
    let r := ftEnter (applyMoves ms m)
    if r.2 then navRun r.1 rest else none

/-- Play the scenario ignoring `Enter` results (used to name the
intermediate states; coincides with the real run when `navRun`
succeeds). -/
def navSteps (m : FileTree) : List (List Bool) → FileTree
  | [] => m
  | ms :: rest => navSteps (ftEnter (applyMoves ms m)).1 rest

/-- The pre-enter state of level `i`: the state just before the
`(i+1)`-st `Enter` (after that level's cursor moves). -/
def navPre (m : FileTree) (mss : List (List Bool)) (i : Nat) : FileTree :=
  applyMoves (mss.getD i []) (navSteps m (mss.take i))

/-- Press `Back` `n` times. -/
def backNF : Nat → FileTree → FileTree
  | 0, m => m
  | n + 1, m => backNF n (ftBack m).1

/-- The scroll-visibility invariant maintained by every file-tree
operation: either no lines are visible, or the cursor lies inside the
scrolled window.  (This is exactly the condition under which
`adjustScroll` is the identity, so restored history frames are not
re-adjusted.) -/
def ftInv (m : FileTree) : Prop :=
  visibleLinesOf m ≤ 0 ∨ (m.offset ≤ m.cursor ∧ m.cursor < m.offset + visibleLinesOf m)

/-- A concrete sized tree over `idx1` for the round-trip witness. -/
def ftW0 : FileTree := ftSetSize (ftNew idx1) 40 20

/-- A concrete two-level scenario: move down and back up, enter `a`,
then enter `c` directly. -/
def mssW : List (List Bool) := [[true, false], []]

/-- The state after playing `mssW` from `ftW0`. -/
def ftWN : FileTree := (navRun ftW0 mssW).getD ftZero

/-! ## Predicates used in the statements and proofs -/

/-- Printable ASCII, tab, newline or carriage return. -/
def isTextByte (b : Nat) : Prop :=
  (32 ≤ b ∧ b ≤ 126) ∨ b = 9 ∨ b = 10 ∨ b = 13

instance : DecidablePred isTextByte := fun b => by
  unfold isTextByte; infer_instance

/-- All six presentation orders of the `idx1` entry set. -/
def idx1perms : List (List IndexEntry) :=
  match idx1 with
  | [e1, e2, e3] =>
    [[e1, e2, e3], [e1, e3, e2], [e2, e1, e3], [e2, e3, e1], [e3, e1, e2], [e3, e2, e1]]
  | _ => []

/-- A path segment that cleaning passes through unchanged: non-empty,
not `"."`, not `".."`, and without a separator. -/
def isNormalSeg (s : List Char) : Prop :=
  s ≠ [] ∧ s ≠ ['.'] ∧ s ≠ ddSeg ∧ '/' ∉ s

/-- Shape of `path.Clean`'s segment output: a (possibly empty) run of
leading `".."` segments followed by normal segments. -/
def goodSegs (segs : List (List Char)) : Prop :=
  ∃ k rest, segs = List.replicate k ddSeg ++ rest ∧ ∀ s ∈ rest, isNormalSeg s

/-- Invariant of `cleanSegs`' accumulator (emitted segments in
reverse): normal segments atop a run of `".."`, the latter absent for
rooted paths. -/
def accGood (rooted : Bool) (acc : List (List Char)) : Prop :=
  ∃ ns k, acc = ns ++ List.replicate k ddSeg ∧ (∀ s ∈ ns, isNormalSeg s) ∧
    (rooted = true → k = 0)

/-- The `"root.md"` file node of `idx1`'s root listing. -/
def rootMdEntry : DirEntry :=
  { Name := "root.md", Path := "root.md", IsDir := false
    Mode := 420, Size := 3, ModTime := 102, Hash := [3] }

/-! # Theorems -/

/-- C6: for the entry set `{"a/b.txt", "a/c/d.txt", "root.md"}` (in
every presentation order), `listDir` at the root yields exactly
`[{name:"a", isDir:true}, {name:"root.md", isDir:false}]`, at `"a"`
exactly `[{name:"b.txt", isDir:false}, {name:"c", isDir:true}]`
(alphabetical by name), and a directory path matching no entry prefix
yields an empty listing rather than an error. -/
theorem C6_listDir_scenario :
    ((listDir idx1 "").map (fun e => (e.Name, e.IsDir))
        = [("a", true), ("root.md", false)])
  ∧ ((listDir idx1 "a").map (fun e => (e.Name, e.IsDir))
        = [("b.txt", false), ("c", true)])
  ∧ listDir idx1 "zzz" = []
  ∧ (idx1perms.all (fun l =>
        decide ((listDir l "").map (fun e => (e.Name, e.IsDir))
          = [("a", true), ("root.md", false)]) &&
        decide ((listDir l "a").map (fun e => (e.Name, e.IsDir))
          = [("b.txt", false), ("c", true)]) &&
        decide (listDir l "zzz" = []))) = true :=
  ⟨by decide, by decide, by decide, by decide⟩

/-- ASCII bytes pass the validity loop whenever the fuel covers the
length. -/
theorem utf8ValidFuel_ascii :
    ∀ (fuel : Nat) (l : List Nat), l.length ≤ fuel → (∀ b ∈ l, b < 128) →
      utf8ValidFuel fuel l = true
  | 0, l, hlen, _ => by
    rw [utf8ValidFuel]
    cases l with
    | nil => rfl
    | cons b rest => simp at hlen
  | _ + 1, [], _, _ => rfl
  | fuel + 1, b :: rest, hlen, h => by
    have hb : b < 128 := h b (by simp)
    have ih := utf8ValidFuel_ascii fuel rest (by simp at hlen; omega)
      (fun x hx => h x (List.mem_cons_of_mem _ hx))
    rw [utf8ValidFuel]
    rw [utf8Step1.eq_def, if_pos hb]
    exact ih

/-- An all-ASCII byte sequence is valid UTF-8. -/
theorem utf8Valid_of_ascii (l : List Nat) (h : ∀ b ∈ l, b < 128) : utf8Valid l = true :=
  utf8ValidFuel_ascii l.length l le_rfl h

/-- Text bytes are not binary-indicating control characters. -/
theorem isControlChar_of_text {b : Nat} (h : isTextByte b) : isControlChar b = false := by
  rcases h with ⟨h1, h2⟩ | h | h | h
  · unfold isControlChar
    have c1 : decide (b < 32) = false := by simp; omega
    have c2 : (b == 127) = false := by simp; omega
    rw [c1, c2]
    simp
  · subst h; decide
  · subst h; decide
  · subst h; decide

/-- Text bytes are ASCII. -/
theorem isTextByte_lt {b : Nat} (h : isTextByte b) : b < 128 := by
  rcases h with ⟨h1, h2⟩ | h | h | h <;> omega

/-- C8: the binary-classification boundary — the empty input is text; a
null byte within the scanned 8 KiB sample forces binary; content made
only of printable ASCII plus tab/newline/carriage-return is text; and a
sample whose binary-indicating control characters exceed 10 % of the
scanned bytes is classified binary. -/
theorem C8_isBinary_boundary :
    IsBinary [] = false
  ∧ (∀ content : List Nat, (0 : Nat) ∈ sampleOf content → IsBinary content = true)
  ∧ (∀ content : List Nat, (∀ b ∈ content, isTextByte b) → IsBinary content = false)
  ∧ (∀ content : List Nat,
        10 * controlCountOf (sampleOf content) > (sampleOf content).length →
        IsBinary content = true) := by
  refine ⟨rfl, ?_, ?_, ?_⟩
  · intro content hmem
    have hne : content.length ≠ 0 := by
      intro h0
      rw [List.length_eq_zero] at h0
      subst h0
      simp [sampleOf] at hmem
    simp [IsBinary, hne]
    exact Or.inl hmem
  · intro content htext
    by_cases hlen : content.length = 0
    · simp [IsBinary, hlen]
    · have hsub : ∀ b ∈ sampleOf content, isTextByte b := fun b hb =>
        htext b (List.take_subset _ _ hb)
      have hzero : ¬((0 : Nat) ∈ sampleOf content) := fun h => by
        have := hsub 0 h
        rcases this with ⟨h1, _⟩ | h | h | h <;> omega
      have hvalid : utf8Valid (sampleOf content) = true :=
        utf8Valid_of_ascii _ (fun b hb => isTextByte_lt (hsub b hb))
      have hcc : controlCountOf (sampleOf content) = 0 := by
        unfold controlCountOf
        rw [List.length_eq_zero, List.filter_eq_nil_iff]
        intro b hb
        simp [isControlChar_of_text (hsub b hb)]
      simp [IsBinary, hlen, hvalid, hcc]
      exact hzero
  · intro content hgt
    have hne : content.length ≠ 0 := by
      intro h0
      rw [List.length_eq_zero] at h0
      subst h0
      simp [sampleOf, controlCountOf] at hgt
    have hdiv : (sampleOf content).length / 10 < controlCountOf (sampleOf content) := by
      rw [Nat.div_lt_iff_lt_mul (by omega : 0 < 10)]
      omega
    simp [IsBinary, hne]
    exact Or.inr (Or.inr hdiv)

/-- C8 witness: the boundary facts evaluated at concrete inputs. -/
theorem C8_isBinary_boundary_witness :
    IsBinary [0, 65] = true ∧ IsBinary [72, 105, 10] = false ∧ IsBinary [1, 1, 65] = true :=
  ⟨C8_isBinary_boundary.2.1 [0, 65] (by decide),
   C8_isBinary_boundary.2.2.1 [72, 105, 10] (by decide),
   C8_isBinary_boundary.2.2.2 [1, 1, 65] (by decide)⟩

/-- C10: `Enter` mutates nothing and reports no directory entered when
the selected node is a file or when the listing is empty — the
directory, listing, cursor, scroll offset and history stack are all
left unchanged and no frame is pushed. -/
theorem C10_enter_frame_effect (m : FileTree)
    (h : ftSelected m = none ∨ ∃ e, ftSelected m = some e ∧ e.IsDir = false) :
    ftEnter m = (m, false) := by
  unfold ftEnter
  rcases h with h | ⟨e, he, hd⟩
  · rw [h]
  · rw [he]
    simp [hd]

/-- C10 witness: an empty listing and a selected file, both left
untouched by `Enter`. -/
theorem C10_enter_frame_effect_witness :
    ftEnter (ftNew []) = (ftNew [], false)
  ∧ ftEnter (ftCursorDown mReady1.tree) = (ftCursorDown mReady1.tree, false) :=
  ⟨C10_enter_frame_effect _ (Or.inl (by decide)),
   C10_enter_frame_effect _ (Or.inr ⟨rootMdEntry, by decide, by decide⟩)⟩

/-- The recorded node's name is the dedup key it is stored under. -/
theorem childNodeOf_name (dirPath : String) (e : IndexEntry) (relPath : String) :
    (childNodeOf dirPath e relPath).Name = childNameOf relPath := by
  unfold childNodeOf
  split <;> rfl

/-- The `ListDir` loop keeps every value's name equal to its key and
keeps the keys pairwise distinct. -/
theorem listDirLoop_inv (dirPath prefixStr : String) (es : List IndexEntry) :
    ∀ seen : List (String × DirEntry),
      (∀ p ∈ seen, p.2.Name = p.1) → (seen.map Prod.fst).Nodup →
      (∀ p ∈ listDirLoop dirPath prefixStr es seen, p.2.Name = p.1) ∧
      ((listDirLoop dirPath prefixStr es seen).map Prod.fst).Nodup := by
  induction es with
  | nil => intro seen h1 h2; exact ⟨h1, h2⟩
  | cons e rest ih =>
    intro seen h1 h2
    simp only [listDirLoop]
    split
    · exact ih seen h1 h2
    · split
      · exact ih seen h1 h2
      · rename_i hne hany
        apply ih
        · intro p hp
          rcases List.mem_append.mp hp with hp | hp
          · exact h1 p hp
          · rw [List.mem_singleton.mp hp]
            exact childNodeOf_name _ _ _
        · rw [List.map_append]
          have hk : childNameOf (trimPrefixStr e.path prefixStr) ∉ seen.map Prod.fst := by
            intro hmem
            rcases List.mem_map.mp hmem with ⟨p, hp, hpk⟩
            apply hany
            simp only [List.any_eq_true]
            exact ⟨p, hp, by simp [hpk]⟩
          simp [List.nodup_append, h2, hk]

/-- Sorting the deduplicated values keeps their names pairwise
distinct. -/
theorem sorted_values_names_nodup (vals : List (String × DirEntry))
    (h1 : ∀ p ∈ vals, p.2.Name = p.1) (h2 : (vals.map Prod.fst).Nodup) :
    ((List.insertionSort nameLe (vals.map Prod.snd)).map DirEntry.Name).Nodup := by
  have hperm := List.perm_insertionSort nameLe (vals.map Prod.snd)
  rw [(hperm.map DirEntry.Name).nodup_iff]
  rw [List.map_map]
  have hcong : vals.map (DirEntry.Name ∘ Prod.snd) = vals.map Prod.fst :=
    List.map_congr_left (fun p hp => h1 p hp)
  rw [hcong]
  exact h2

/-- C9: for every entry set and every directory path, no two nodes of
the produced listing share a name — each first path segment past the
prefix appears exactly once. -/
theorem C9_dedup_invariant (index : List IndexEntry) (dirPath : String) :
    ((listDir index dirPath).map DirEntry.Name).Nodup := by
  simp only [listDir]
  apply sorted_values_names_nodup
  · exact (listDirLoop_inv _ _ _ [] (by simp) (by simp)).1
  · exact (listDirLoop_inv _ _ _ [] (by simp) (by simp)).2

/-- C1 counterexample: with the preview in the Loading state for path
`"b"`, handling the stale completion message for path `"a"` makes the
preview show `"a"`'s content — the claimed path-match discard does not
happen. -/
theorem C1_stale_preview_cex :
    mLoadingB.preview.state = PState.loading
  ∧ mLoadingB.preview.path = "b"
  ∧ (openUpdate glZero mLoadingB (.fileContent "a" [72, 105] false)).1.preview.state
      = PState.text
  ∧ (openUpdate glZero mLoadingB (.fileContent "a" [72, 105] false)).1.preview.path
      = "a" :=
  ⟨rfl, rfl, by decide, by decide⟩

/-- C1 (amended): handling a file-content completion message for path A
in the ready state unconditionally overwrites the preview with A's
classified content and issues no command; no path comparison is
performed, so an earlier selection's stale completion replaces a later
selection's Loading state. -/
theorem C1_stale_preview_amended (getLang : String → String) (m : OModel)
    (hready : m.state = OState.ready) (p : String) (c : List Nat) (b : Bool) :
    openUpdate getLang m (.fileContent p c b)
      = ({ m with preview := pvSetContent getLang m.preview p c b }, Cmd.none) := by
  simp only [openUpdate, hready]
  simp only [updateReady, hready]

/-- C1 witness: the amended overwrite rule applied at a concrete
loading model. -/
theorem C1_stale_preview_amended_witness :
    openUpdate glZero mLoadingB (.fileContent "a" [72] true)
      = ({ mLoadingB with preview := pvSetContent glZero mLoadingB.preview "a" [72] true },
         Cmd.none) :=
  C1_stale_preview_amended glZero mLoadingB rfl "a" [72] true

/-- C2 counterexample: `executeCopy` with a non-empty destination
issues the copy task but returns the model unchanged — the dialog is
still visible, not optimistically closed. -/
theorem C2_copy_dialog_cex :
    mDialog.copyDialog.visible = true
  ∧ mDialog.copyDialog.input.value = "readme.md"
  ∧ (executeCopy mDialog).2 = Cmd.copyFile "docs/readme.md" "readme.md"
  ∧ (executeCopy mDialog).1 = mDialog
  ∧ (executeCopy mDialog).1.copyDialog.visible = true :=
  ⟨rfl, by decide, rfl, by decide, rfl⟩

/-- C2 (amended): `executeCopy` with a non-empty destination issues
exactly one fetch-then-write task and leaves the model — including the
still-open dialog — unchanged; with an empty destination it issues no
task and surfaces a transient status message with the dialog still
open; the dialog is closed when the completion or failure message
arrives, whose handler also surfaces the status-bar outcome. -/
theorem C2_executeCopy_amended (m : OModel) :
    (m.copyDialog.input.value ≠ "" →
        executeCopy m = (m, Cmd.copyFile m.copyDialog.sourcePath m.copyDialog.input.value))
  ∧ (m.copyDialog.input.value = "" →
        executeCopy m
          = ({ m with statusBar := sbSetMessage m.statusBar "Destination path required" },
             Cmd.scheduleClear))
  ∧ (∀ getLang s d, m.state = OState.ready →
        openUpdate getLang m (.copyComplete s d)
          = ({ m with copyDialog := cdHide m.copyDialog
                      statusBar := sbSetMessage m.statusBar ("Copied to " ++ d) },
             Cmd.scheduleClear))
  ∧ (∀ getLang s d e, m.state = OState.ready →
        openUpdate getLang m (.copyError s d e)
          = ({ m with copyDialog := cdHide m.copyDialog
                      statusBar := sbSetError m.statusBar e },
             Cmd.scheduleClear)) := by
  refine ⟨?_, ?_, ?_, ?_⟩
  · intro h
    simp only [executeCopy]
    rw [if_neg h]
  · intro h
    simp only [executeCopy]
    rw [if_pos h]
  · intro getLang s d hready
    simp only [openUpdate, hready]
    simp only [updateReady, hready]
  · intro getLang s d e hready
    simp only [openUpdate, hready]
    simp only [updateReady, hready]

/-- C2 witness: the amended copy-dialog behavior at concrete models
with a filled and an empty destination. -/
theorem C2_executeCopy_amended_witness :
    executeCopy mDialog = (mDialog, Cmd.copyFile "docs/readme.md" "readme.md")
  ∧ executeCopy mDialogEmpty
      = ({ mDialogEmpty with
            statusBar := sbSetMessage mDialogEmpty.statusBar "Destination path required" },
         Cmd.scheduleClear)
  ∧ openUpdate glZero mDialog (.copyComplete "docs/readme.md" "out.txt")
      = ({ mDialog with copyDialog := cdHide mDialog.copyDialog
                        statusBar := sbSetMessage mDialog.statusBar ("Copied to " ++ "out.txt") },
         Cmd.scheduleClear) :=
  ⟨(C2_executeCopy_amended mDialog).1 (by decide),
   (C2_executeCopy_amended mDialogEmpty).2.1 rfl,
   (C2_executeCopy_amended mDialog).2.2.1 glZero "docs/readme.md" "out.txt" rfl⟩

/-- A singleton key binding matches exactly its key. -/
theorem keyMatches_single {k s : String} : keyMatches k [s] = true ↔ k = s := by
  simp [keyMatches]

/-- `executeCopy` never touches the tree or the preview. -/
theorem executeCopy_frame (m : OModel) :
    (executeCopy m).1.tree = m.tree ∧ (executeCopy m).1.preview = m.preview := by
  simp only [executeCopy]
  split <;> exact ⟨rfl, rfl⟩

/-- C3 counterexample: with the copy dialog visible, the global quit
key `"q"` is intercepted before dialog routing — the application quits
and the dialog (whose focused text input would have appended the
character) is left untouched. -/
theorem C3_dialog_routing_cex :
    mDialog.copyDialog.visible = true
  ∧ (openUpdate glZero mDialog (.key "q")).1 = mDialog
  ∧ (openUpdate glZero mDialog (.key "q")).2 = Cmd.quit
  ∧ (cdUpdate mDialog.copyDialog (.key "q")).1.input.value = "readme.mdq" :=
  ⟨rfl, by decide, rfl, by decide⟩

/-- C3 (amended): while the copy dialog is visible in the ready state,
every key except the global quit key `"q"` (which quits immediately) is
routed to the dialog — escape cancels, enter confirms, any other key is
forwarded to the destination text input — and no key reaches the tree
or preview components. -/
theorem C3_dialog_routing_amended (getLang : String → String) (m : OModel) (k : String)
    (hready : m.state = OState.ready) (hvis : m.copyDialog.visible = true) :
    (openUpdate getLang m (.key k)
      = (if k = "q" then (m, Cmd.quit)
         else if k = "esc" then ({ m with copyDialog := cdHide m.copyDialog }, Cmd.none)
         else if k = "enter" then executeCopy m
         else ({ m with copyDialog := (cdUpdate m.copyDialog (.key k)).1 },
               (cdUpdate m.copyDialog (.key k)).2)))
  ∧ (openUpdate getLang m (.key k)).1.tree = m.tree
  ∧ (openUpdate getLang m (.key k)).1.preview = m.preview := by
  have hmain : openUpdate getLang m (.key k)
      = (if k = "q" then (m, Cmd.quit)
         else if k = "esc" then ({ m with copyDialog := cdHide m.copyDialog }, Cmd.none)
         else if k = "enter" then executeCopy m
         else ({ m with copyDialog := (cdUpdate m.copyDialog (.key k)).1 },
               (cdUpdate m.copyDialog (.key k)).2)) := by
    by_cases hq : k = "q"
    · subst hq
      rw [if_pos rfl]
      rfl
    · rw [if_neg hq]
      have hq2 : ¬(keyMatches k keysQuit = true) := fun hh =>
        hq (keyMatches_single.mp (by rwa [keysQuit] at hh))
      simp only [openUpdate]
      rw [if_neg hq2]
      simp only [hready]
      simp only [updateReady]
      rw [if_pos hvis]
      by_cases hesc : k = "esc"
      · subst hesc
        rw [if_pos rfl]
        simp only [handleCopyDialogKeys]
        rw [if_pos (show keyMatches "esc" keysEscape = true from rfl)]
        simp only [hready]
      · rw [if_neg hesc]
        have hesc2 : ¬(keyMatches k keysEscape = true) := fun hh =>
          hesc (keyMatches_single.mp (by rwa [keysEscape] at hh))
        simp only [handleCopyDialogKeys]
        rw [if_neg hesc2]
        by_cases hent : k = "enter"
        · subst hent
          rw [if_pos rfl]
          rw [if_pos (show keyMatches "enter" keysEnter = true from rfl)]
        · rw [if_neg hent]
          have hent2 : ¬(keyMatches k keysEnter = true) := fun hh =>
            hent (keyMatches_single.mp (by rwa [keysEnter] at hh))
          rw [if_neg hent2]
          simp only [hready]
  refine ⟨hmain, ?_, ?_⟩
  · rw [hmain]
    split
    · rfl
    · split
      · rfl
      · split
        · exact (executeCopy_frame m).1
        · rfl
  · rw [hmain]
    split
    · rfl
    · split
      · rfl
      · split
        · exact (executeCopy_frame m).2
        · rfl

/-- C3 witness: a plain character key is routed to the dialog's text
input of a concrete visible-dialog model. -/
theorem C3_dialog_routing_amended_witness :
    openUpdate glZero mDialog (.key "x")
      = ({ mDialog with copyDialog := (cdUpdate mDialog.copyDialog (.key "x")).1 },
         (cdUpdate mDialog.copyDialog (.key "x")).2) := by
  have h := (C3_dialog_routing_amended glZero mDialog "x" rfl rfl).1
  rw [if_neg (by decide), if_neg (by decide), if_neg (by decide)] at h
  exact h

/-- C5: for the oversized selected file the guard issues no fetch and
for the within-limit file it issues exactly one fetch — but the
TooLarge/Loading preview transitions happen only on the Go value
receiver's local copy (`loadSelectedPreview`'s first component) and the
caller-visible model keeps its previous preview state unchanged. -/
theorem C5_size_guard :
    (loadSelectedPreview mBig).2 = Cmd.none
  ∧ (loadSelectedPreview mBig).1.preview.state = PState.tooLarge
  ∧ (loadSelectedPreview mBig).1.preview.path = "big.bin"
  ∧ (openUpdate glZero mBig (.key "enter")).2 = Cmd.none
  ∧ (openUpdate glZero mBig (.key "enter")).1.preview = mBig.preview
  ∧ mBig.preview.state ≠ PState.tooLarge
  ∧ (openUpdate glZero mReady1 (.key "down")).2 = Cmd.fetchFile "root.md"
  ∧ (loadSelectedPreview (openUpdate glZero mReady1 (.key "down")).1).1.preview.state
      = PState.loading
  ∧ (openUpdate glZero mReady1 (.key "down")).1.preview = mReady1.preview
  ∧ mReady1.preview.state ≠ PState.loading :=
  ⟨rfl, by decide, by decide, rfl, by decide, by decide, rfl, by decide, by decide, by decide⟩

/-- `adjustScroll` only ever changes the scroll offset. -/
theorem adjustScroll_fields (m : FileTree) :
    (adjustScroll m).currentDir = m.currentDir ∧ (adjustScroll m).entries = m.entries ∧
    (adjustScroll m).cursor = m.cursor ∧ (adjustScroll m).history = m.history ∧
    (adjustScroll m).height = m.height ∧ (adjustScroll m).index = m.index := by
  simp only [adjustScroll]
  split_ifs <;> exact ⟨rfl, rfl, rfl, rfl, rfl, rfl⟩

/-- `adjustScroll` establishes the visibility invariant. -/
theorem adjustScroll_inv (m : FileTree) : ftInv (adjustScroll m) := by
  unfold ftInv
  simp only [adjustScroll]
  split_ifs with h0 h1 h2 h3 <;>
    simp only [visibleLinesOf] at * <;> omega

/-- On a state already satisfying the invariant, `adjustScroll` is the
identity. -/
theorem adjustScroll_eq_self (m : FileTree) (h : ftInv m) : adjustScroll m = m := by
  unfold ftInv visibleLinesOf at h
  simp only [adjustScroll]
  split_ifs with h0 h1 h2 h3 <;>
    first
      | rfl
      | (exfalso; simp only [visibleLinesOf] at *; omega)

/-- Cursor moves never change the directory, listing, history or
height. -/
theorem ftMove_fields (m : FileTree) (d : Bool) :
    (ftMove m d).currentDir = m.currentDir ∧ (ftMove m d).entries = m.entries ∧
    (ftMove m d).history = m.history ∧ (ftMove m d).height = m.height := by
  unfold ftMove ftCursorUp ftCursorDown
  split_ifs with h1 h2 h3
  · obtain ⟨f1, f2, _, f4, f5, _⟩ := adjustScroll_fields { m with cursor := m.cursor + 1 }
    exact ⟨f1, f2, f4, f5⟩
  · exact ⟨rfl, rfl, rfl, rfl⟩
  · obtain ⟨f1, f2, _, f4, f5, _⟩ := adjustScroll_fields { m with cursor := m.cursor - 1 }
    exact ⟨f1, f2, f4, f5⟩
  · exact ⟨rfl, rfl, rfl, rfl⟩

/-- Cursor moves preserve the invariant. -/
theorem ftMove_inv (m : FileTree) (d : Bool) (h : ftInv m) : ftInv (ftMove m d) := by
  unfold ftMove ftCursorUp ftCursorDown
  split_ifs <;> first | exact adjustScroll_inv _ | exact h

/-- Move sequences never change the directory, listing, history or
height, and preserve the invariant. -/
theorem applyMoves_fields (ms : List Bool) (m : FileTree) :
    (applyMoves ms m).currentDir = m.currentDir ∧ (applyMoves ms m).entries = m.entries ∧
    (applyMoves ms m).history = m.history ∧ (applyMoves ms m).height = m.height ∧
    (ftInv m → ftInv (applyMoves ms m)) := by
  induction ms generalizing m with
  | nil => exact ⟨rfl, rfl, rfl, rfl, fun h => h⟩
  | cons d ms ih =>
    obtain ⟨h1, h2, h3, h4⟩ := ftMove_fields m d
    obtain ⟨g1, g2, g3, g4, g5⟩ := ih (ftMove m d)
    exact ⟨g1.trans h1, g2.trans h2, g3.trans h3, g4.trans h4,
           fun h => g5 (ftMove_inv m d h)⟩

/-- Loading a directory always establishes the invariant. -/
theorem ftLoadDir_inv (m : FileTree) (dir : String) : ftInv (ftLoadDir m dir) := by
  unfold ftInv visibleLinesOf ftLoadDir
  simp only
  omega

/-- A successful `Enter` pushes exactly the pre-enter frame and resets
the cursor and offset at unchanged height, establishing the invariant. -/
theorem ftEnter_true_spec (m : FileTree) (h : (ftEnter m).2 = true) :
    (ftEnter m).1.history = m.history ++ [⟨m.currentDir, m.cursor, m.offset⟩] ∧
    (ftEnter m).1.height = m.height ∧ ftInv (ftEnter m).1 := by
  cases hs : ftSelected m with
  | none =>
    exfalso
    simp [ftEnter, hs] at h
  | some e =>
    by_cases hd : e.IsDir = true
    · have he : ftEnter m
          = (ftLoadDir
              { m with history := m.history ++ [⟨m.currentDir, m.cursor, m.offset⟩] } e.Path,
             true) := by
        simp [ftEnter, hs, hd]
      rw [he]
      exact ⟨rfl, rfl, ftLoadDir_inv _ _⟩
    · exfalso
      simp [ftEnter, hs, hd] at h

/-- Peeling a repeated `Back` from the outside. -/
theorem backNF_succ_outer : ∀ (n : Nat) (m : FileTree),
    backNF (n + 1) m = (ftBack (backNF n m)).1
  | 0, _ => rfl
  | n + 1, m => by
    have ih := backNF_succ_outer n (ftBack m).1
    calc backNF (n + 2) m = backNF (n + 1) (ftBack m).1 := rfl
    _ = (ftBack (backNF n (ftBack m).1)).1 := ih
    _ = (ftBack (backNF (n + 1) m)).1 := rfl

/-- `Back` on a state whose history ends with a frame satisfying the
visibility bound pops it and restores its core exactly. -/
theorem ftBack_pop (m : FileTree) (fr : HistoryEntry) (rest : List HistoryEntry)
    (hh : m.history = rest ++ [fr])
    (hfr : visibleLinesOf m ≤ 0 ∨
           (fr.offset ≤ fr.cursor ∧ fr.cursor < fr.offset + visibleLinesOf m)) :
    (ftBack m).2 = true ∧
    ftCore (ftBack m).1 = (fr.dir, fr.cursor, fr.offset) ∧
    (ftBack m).1.history = rest ∧ (ftBack m).1.height = m.height := by
  have hlast : m.history.getLast? = some fr := by
    rw [hh]; exact List.getLast?_concat _
  have hdrop : m.history.dropLast = rest := by
    rw [hh]; exact List.dropLast_concat
  have hsinv : ftInv { ftLoadDir { m with history := m.history.dropLast } fr.dir with
                        cursor := fr.cursor, offset := fr.offset } := by
    unfold ftInv
    exact hfr
  have hb : ftBack m
      = (adjustScroll
          { ftLoadDir { m with history := m.history.dropLast } fr.dir with
              cursor := fr.cursor, offset := fr.offset },
         true) := by
    unfold ftBack
    rw [hlast]
  rw [hb, adjustScroll_eq_self _ hsinv]
  exact ⟨rfl, rfl, hdrop, rfl⟩

/-- `Back` reports no navigation exactly at the root with empty
history. -/
theorem ftBack_false_iff (m : FileTree) :
    (ftBack m).2 = false ↔ (m.history = [] ∧ m.currentDir = "") := by
  unfold ftBack
  cases hl : m.history.getLast? with
  | some fr =>
    constructor
    · intro hco
      exact absurd hco (by simp)
    · rintro ⟨h1, _⟩
      rw [h1] at hl
      simp at hl
  | none =>
    have hnil : m.history = [] := by
      cases hh : m.history with
      | nil => rfl
      | cons a l => rw [hh] at hl; simp at hl
    change ((if m.currentDir = "" then (m, false)
             else (ftLoadDir m (parentPath m.currentDir), true)).2 = false) ↔ _
    split_ifs with hd
    · simp [hnil, hd]
    · simp [hd]

/-- The pre-enter state of a deeper level, seen from the tail
scenario. -/
theorem navPre_succ (m : FileTree) (ms : List Bool) (rest : List (List Bool)) (i : Nat) :
    navPre m (ms :: rest) (i + 1) = navPre (ftEnter (applyMoves ms m)).1 rest i := rfl

/-- The first level's pre-enter state. -/
theorem navPre_zero (m : FileTree) (ms : List Bool) (rest : List (List Bool)) :
    navPre m (ms :: rest) 0 = applyMoves ms m := rfl

/-- Main induction: after a successful `N`-level run, `N` `Back`s pop
the whole pushed stack, and the `(j+1)`-st `Back` restores the core of
the corresponding pre-enter state exactly. -/
theorem navRun_back_aux : ∀ (mss : List (List Bool)) (m mN : FileTree),
    ftInv m → navRun m mss = some mN →
    (backNF mss.length mN).history = m.history ∧
    (backNF mss.length mN).height = m.height ∧
    (∀ j, j < mss.length →
      ftCore (backNF (j + 1) mN) = ftCore (navPre m mss (mss.length - 1 - j)))
  | [], m, mN, _, hrun => by
    have hm : m = mN := by
      simpa [navRun] using hrun
    subst hm
    exact ⟨rfl, rfl, fun j hj => absurd hj (by simp)⟩
  | ms :: rest, m, mN, hinv, hrun => by
    simp only [navRun] at hrun
    by_cases hent : (ftEnter (applyMoves ms m)).2 = true
    case neg =>
      rw [if_neg hent] at hrun
      exact absurd hrun (by simp)
    case pos =>
    rw [if_pos hent] at hrun
    obtain ⟨hm1d, hm1e, hm1h, hm1ht, hm1i⟩ := applyMoves_fields ms m
    have hinv1 : ftInv (applyMoves ms m) := hm1i hinv
    obtain ⟨hh2, hht2, hinv2⟩ := ftEnter_true_spec (applyMoves ms m) hent
    obtain ⟨ih1, ih2, ih3⟩ := navRun_back_aux rest (ftEnter (applyMoves ms m)).1 mN hinv2 hrun
    have hsucc := backNF_succ_outer rest.length mN
    have hth : (backNF rest.length mN).history
        = m.history ++ [⟨(applyMoves ms m).currentDir, (applyMoves ms m).cursor,
                         (applyMoves ms m).offset⟩] := by
      rw [ih1, hh2, hm1h]
    have htheight : (backNF rest.length mN).height = m.height := by
      rw [ih2, hht2, hm1ht]
    have hfr : visibleLinesOf (backNF rest.length mN) ≤ 0 ∨
        ((⟨(applyMoves ms m).currentDir, (applyMoves ms m).cursor,
           (applyMoves ms m).offset⟩ : HistoryEntry).offset
            ≤ (⟨(applyMoves ms m).currentDir, (applyMoves ms m).cursor,
                (applyMoves ms m).offset⟩ : HistoryEntry).cursor ∧
         (⟨(applyMoves ms m).currentDir, (applyMoves ms m).cursor,
           (applyMoves ms m).offset⟩ : HistoryEntry).cursor
            < (⟨(applyMoves ms m).currentDir, (applyMoves ms m).cursor,
                (applyMoves ms m).offset⟩ : HistoryEntry).offset
              + visibleLinesOf (backNF rest.length mN)) := by
      have hv : visibleLinesOf (backNF rest.length mN) = visibleLinesOf (applyMoves ms m) := by
        unfold visibleLinesOf
        rw [htheight, ← hm1ht]
      rw [hv]
      exact hinv1
    have hpop := ftBack_pop (backNF rest.length mN) _ m.history hth hfr
    refine ⟨?_, ?_, ?_⟩
    · show (backNF (rest.length + 1) mN).history = m.history
      rw [hsucc]
      exact hpop.2.2.1
    · show (backNF (rest.length + 1) mN).height = m.height
      rw [hsucc, hpop.2.2.2]
      exact htheight
    · intro j hj
      rcases Nat.lt_or_ge j rest.length with hlt | hge
      · have hstep := ih3 j hlt
        have hidx : (ms :: rest).length - 1 - j = (rest.length - 1 - j) + 1 := by
          simp only [List.length_cons]
          omega
        rw [hidx, navPre_succ]
        exact hstep
      · have hj2 : j = rest.length := by
          simp only [List.length_cons] at hj
          omega
        subst hj2
        have hidx : (ms :: rest).length - 1 - rest.length = 0 := by
          simp only [List.length_cons]
          omega
        rw [hidx, navPre_zero, hsucc, hpop.2.1]
        rfl

/-- C4: entering `N` directories (each `Enter` pushing the current
`{directory, cursor, scrollOffset}` frame) and then pressing `Back`
`N` times restores the pre-enter `{directory, cursor, scrollOffset}`
exactly at every intermediate level, for every starting state
satisfying the scroll-visibility invariant (which all reachable states
do) and every interleaving of cursor moves; and `Back` returns false
exactly at the root with an empty history stack. -/
theorem C4_history_roundtrip (mss : List (List Bool)) (m mN : FileTree)
    (hinv : ftInv m) (hrun : navRun m mss = some mN) :
    (∀ j, j < mss.length →
        ftCore (backNF (j + 1) mN) = ftCore (navPre m mss (mss.length - 1 - j)))
  ∧ (∀ t : FileTree, (ftBack t).2 = false ↔ (t.history = [] ∧ t.currentDir = "")) :=
  ⟨(navRun_back_aux mss m mN hinv hrun).2.2, ftBack_false_iff⟩

/-- C4 witness: a concrete sized tree, a two-level scenario with cursor
moves, and both backs restoring the recorded cores. -/
theorem C4_history_roundtrip_witness :
    ftInv ftW0 ∧ navRun ftW0 mssW = some ftWN
  ∧ ftCore (backNF 1 ftWN) = ftCore (navPre ftW0 mssW 1)
  ∧ ftCore (backNF 2 ftWN) = ftCore (navPre ftW0 mssW 0) := by
  have h1 : ftInv ftW0 := by
    unfold ftInv visibleLinesOf
    decide
  have h2 : navRun ftW0 mssW = some ftWN := by decide
  have h := C4_history_roundtrip mssW ftW0 ftWN h1 h2
  exact ⟨h1, h2, h.1 0 (by decide), h.1 1 (by decide)⟩

/-- Split segments contain no separator. -/
theorem splitSlashAux_no_slash : ∀ (l cur : List Char), '/' ∉ cur →
    ∀ s ∈ splitSlashAux cur l, '/' ∉ s := by
  intro l
  induction l with
  | nil =>
    intro cur hc s hs
    simp only [splitSlashAux, List.mem_singleton] at hs
    subst hs
    simpa using hc
  | cons c rest ih =>
    intro cur hc s hs
    simp only [splitSlashAux] at hs
    by_cases h : c = '/'
    · rw [if_pos h] at hs
      rcases List.mem_cons.mp hs with hs | hs
      · subst hs
        simpa using hc
      · exact ih [] (by simp) s hs
    · rw [if_neg h] at hs
      refine ih (c :: cur) ?_ s hs
      intro hq
      rcases List.mem_cons.mp hq with hq2 | hq2
      · exact h hq2.symm
      · exact hc hq2

/-- Top-level split segments contain no separator. -/
theorem splitSlash_no_slash (l : List Char) : ∀ s ∈ splitSlash l, '/' ∉ s :=
  splitSlashAux_no_slash l [] (by simp)

/-- Splitting a separator-free list yields one segment. -/
theorem splitSlashAux_of_no_slash : ∀ (l cur : List Char), '/' ∉ l →
    splitSlashAux cur l = [cur.reverse ++ l] := by
  intro l
  induction l with
  | nil => intro cur _; simp [splitSlashAux]
  | cons c rest ih =>
    intro cur hl
    have hc : ¬(c = '/') := fun h => hl (by rw [h]; exact List.mem_cons_self _ _)
    simp only [splitSlashAux]
    rw [if_neg hc]
    rw [ih (c :: cur) (fun hm => hl (List.mem_cons_of_mem _ hm))]
    simp

/-- Splitting past the first separator. -/
theorem splitSlashAux_append : ∀ (s cur t : List Char), '/' ∉ s →
    splitSlashAux cur (s ++ '/' :: t) = (cur.reverse ++ s) :: splitSlash t := by
  intro s
  induction s with
  | nil =>
    intro cur t _
    simp only [List.nil_append, splitSlashAux]
    simp [splitSlash]
  | cons a s ih =>
    intro cur t hs
    have ha : ¬(a = '/') := fun h => hs (by rw [h]; exact List.mem_cons_self _ _)
    simp only [List.cons_append, splitSlashAux]
    rw [if_neg ha]
    simp only [List.append_eq]
    rw [ih (a :: cur) t (fun hm => hs (List.mem_cons_of_mem _ hm))]
    simp

/-- Splitting is a left inverse of joining, for separator-free
segments. -/
theorem splitSlash_joinSlash : ∀ segs : List (List Char), segs ≠ [] →
    (∀ s ∈ segs, '/' ∉ s) → splitSlash (joinSlash segs) = segs
  | [], h, _ => absurd rfl h
  | [s], _, hn => by
    simp only [joinSlash, splitSlash]
    rw [splitSlashAux_of_no_slash s [] (hn s (by simp))]
    simp
  | s :: s2 :: ss, _, hn => by
    simp only [joinSlash, splitSlash]
    rw [splitSlashAux_append s [] (joinSlash (s2 :: ss)) (hn s (by simp))]
    simp only [List.reverse_nil, List.nil_append]
    congr 1
    exact splitSlash_joinSlash (s2 :: ss) (by simp)
      (fun x hx => hn x (List.mem_cons_of_mem _ hx))

/-- `ddStep` preserves the accumulator invariant. -/
theorem ddStep_accGood (rooted : Bool) (acc : List (List Char)) (h : accGood rooted acc) :
    accGood rooted (ddStep rooted acc) := by
  obtain ⟨ns, k, rfl, hns, hk⟩ := h
  cases ns with
  | nil =>
    cases k with
    | zero =>
      simp only [List.replicate, List.nil_append, ddStep]
      split_ifs with hr
      · exact ⟨[], 0, by simp, by simp, fun _ => rfl⟩
      · exact ⟨[], 1, by simp, by simp, fun h2 => absurd h2 (by simpa using hr)⟩
    | succ k2 =>
      have hrf : rooted = false := by
        cases hrr : rooted
        · rfl
        · exact absurd (hk hrr) (by simp)
      subst hrf
      have hd : ddStep false (List.replicate (k2 + 1) ddSeg) = List.replicate (k2 + 2) ddSeg := by
        simp [List.replicate_succ, ddStep]
      rw [List.nil_append, hd]
      exact ⟨[], k2 + 2, by simp, by simp, by simp⟩
  | cons n ns2 =>
    have hn := hns n (by simp)
    simp only [List.cons_append, ddStep]
    rw [if_neg (by rintro ⟨_, hnd⟩; exact hn.2.2.1 hnd)]
    exact ⟨ns2, k, rfl, fun s hs => hns s (List.mem_cons_of_mem _ hs), hk⟩

/-- `cleanSegs` on separator-free input turns a good accumulator into a
good segment list. -/
theorem cleanSegs_accGood (rooted : Bool) :
    ∀ (ss acc : List (List Char)), (∀ s ∈ ss, '/' ∉ s) → accGood rooted acc →
    goodSegs (cleanSegs rooted acc ss) := by
  intro ss
  induction ss with
  | nil =>
    intro acc _ hacc
    obtain ⟨ns, k, rfl, hns, _⟩ := hacc
    simp only [cleanSegs]
    rw [List.reverse_append, List.reverse_replicate]
    exact ⟨k, ns.reverse, rfl, fun s hs => hns s (List.mem_reverse.mp hs)⟩
  | cons seg rest ih =>
    intro acc hss hacc
    simp only [cleanSegs]
    split_ifs with h1 h2
    · exact ih acc (fun s hs => hss s (List.mem_cons_of_mem _ hs)) hacc
    · exact ih _ (fun s hs => hss s (List.mem_cons_of_mem _ hs)) (ddStep_accGood rooted acc hacc)
    · apply ih _ (fun s hs => hss s (List.mem_cons_of_mem _ hs))
      obtain ⟨ns, k, rfl, hns, hk⟩ := hacc
      refine ⟨seg :: ns, k, by simp, ?_, hk⟩
      intro s hs
      rcases List.mem_cons.mp hs with rfl | hs
      · exact ⟨fun h => h1 (Or.inl h), fun h => h1 (Or.inr h), h2, hss s (by simp)⟩
      · exact hns s hs

/-- `cleanSegs` absorbs a leading `".."` run into the accumulator. -/
theorem cleanSegs_dd_run : ∀ (k j : Nat) (rest : List (List Char)),
    cleanSegs false (List.replicate j ddSeg) (List.replicate k ddSeg ++ rest)
      = cleanSegs false (List.replicate (k + j) ddSeg) rest := by
  intro k
  induction k with
  | zero => intro j rest; simp
  | succ k2 ih =>
    intro j rest
    have hstep : ddStep false (List.replicate j ddSeg) = List.replicate (j + 1) ddSeg := by
      cases j with
      | zero => simp [ddStep, List.replicate_succ]
      | succ j2 => simp [List.replicate_succ, ddStep]
    have hstep1 : cleanSegs false (List.replicate j ddSeg)
          (List.replicate (k2 + 1) ddSeg ++ rest)
        = cleanSegs false (ddStep false (List.replicate j ddSeg))
            (List.replicate k2 ddSeg ++ rest) := by
      simp [List.replicate_succ, cleanSegs, ddSeg]
    rw [hstep1, hstep, ih (j + 1) rest]
    have harith : k2 + (j + 1) = k2 + 1 + j := by omega
    rw [harith]

/-- `cleanSegs` emits normal segments verbatim. -/
theorem cleanSegs_normals : ∀ (rest acc : List (List Char)),
    (∀ s ∈ rest, isNormalSeg s) →
    cleanSegs false acc rest = acc.reverse ++ rest := by
  intro rest
  induction rest with
  | nil => intro acc _; simp [cleanSegs]
  | cons s rest2 ih =>
    intro acc hs
    have hn := hs s (by simp)
    simp only [cleanSegs]
    rw [if_neg (by rintro (h | h); exacts [hn.1 h, hn.2.1 h]), if_neg hn.2.2.1]
    rw [ih (s :: acc) (fun x hx => hs x (List.mem_cons_of_mem _ hx))]
    simp

/-- `cleanSegs` is the identity on already-clean segment lists. -/
theorem cleanSegs_id (segs : List (List Char)) (h : goodSegs segs) :
    cleanSegs false [] segs = segs := by
  obtain ⟨k, rest, rfl, hrest⟩ := h
  have h0 := cleanSegs_dd_run k 0 rest
  rw [show List.replicate 0 ddSeg = ([] : List (List Char)) from rfl, Nat.add_zero] at h0
  rw [h0, cleanSegs_normals rest (List.replicate k ddSeg) hrest]
  simp

/-- Members of a good segment list are non-empty, not `"."`, and
separator-free. -/
theorem goodSegs_members (segs : List (List Char)) (h : goodSegs segs) :
    ∀ s ∈ segs, s ≠ [] ∧ s ≠ ['.'] ∧ '/' ∉ s := by
  obtain ⟨k, rest, rfl, hrest⟩ := h
  intro s hs
  rcases List.mem_append.mp hs with hs | hs
  · rw [List.eq_of_mem_replicate hs]
    refine ⟨by simp [ddSeg], by simp [ddSeg], by simp [ddSeg]⟩
  · have hh := hrest s hs
    exact ⟨hh.1, hh.2.1, hh.2.2.2⟩

/-- The head of a join is the head of its first segment. -/
theorem joinSlash_head? (s : List Char) (ss : List (List Char)) (hs : s ≠ []) :
    (joinSlash (s :: ss)).head? = s.head? := by
  cases ss with
  | nil => rfl
  | cons s2 ss2 =>
    cases s with
    | nil => exact absurd rfl hs
    | cons a s0 => rfl

/-- A join of a non-empty first segment is non-empty. -/
theorem joinSlash_ne_nil (s : List Char) (ss : List (List Char)) (hs : s ≠ []) :
    joinSlash (s :: ss) ≠ [] := by
  cases ss with
  | nil => simpa [joinSlash] using hs
  | cons s2 ss2 =>
    cases s with
    | nil => exact absurd rfl hs
    | cons a s0 => simp [joinSlash]

/-- The join of non-empty separator-free segments does not end in a
separator. -/
theorem joinSlash_getLast_ne_slash : ∀ segs : List (List Char), segs ≠ [] →
    (∀ s ∈ segs, s ≠ [] ∧ '/' ∉ s) →
    ∀ ch, (joinSlash segs).getLast? = some ch → ch ≠ '/'
  | [], h, _, _, _ => absurd rfl h
  | [s], _, hp, ch, hl => by
    have hs := hp s (by simp)
    have hmem : ch ∈ s := List.mem_of_getLast?_eq_some (by simpa [joinSlash] using hl)
    intro hch
    subst hch
    exact hs.2 hmem
  | s :: s2 :: ss, _, hp, ch, hl => by
    have hne : joinSlash (s2 :: ss) ≠ [] := joinSlash_ne_nil s2 ss (hp s2 (by simp)).1
    obtain ⟨y, hy⟩ : ∃ y, (joinSlash (s2 :: ss)).getLast? = some y := by
      cases hgy : (joinSlash (s2 :: ss)).getLast? with
      | none => exact absurd (List.getLast?_eq_none_iff.mp hgy) hne
      | some y => exact ⟨y, rfl⟩
    obtain ⟨ys, hys⟩ := List.getLast?_eq_some_iff.mp hy
    have hform : joinSlash (s :: s2 :: ss) = (s ++ '/' :: ys) ++ [y] := by
      simp only [joinSlash]
      rw [hys]
      simp
    rw [hform, List.getLast?_concat] at hl
    injection hl with hl
    subst hl
    exact joinSlash_getLast_ne_slash (s2 :: ss) (by simp)
      (fun x hx => hp x (List.mem_cons_of_mem _ hx)) y hy

/-- The join of good segments is not `"."`. -/
theorem joinSlash_ne_dot : ∀ segs : List (List Char), segs ≠ [] →
    (∀ s ∈ segs, s ≠ [] ∧ s ≠ ['.']) → joinSlash segs ≠ ['.']
  | [], h, _ => absurd rfl h
  | [s], _, hp => by simpa [joinSlash] using (hp s (by simp)).2
  | s :: s2 :: ss, _, hp => by
    simp only [joinSlash]
    intro h
    have hs := (hp s (by simp)).1
    cases s with
    | nil => exact hs rfl
    | cons a s0 =>
      have hlen := congrArg List.length h
      simp [List.length_append] at hlen

/-- The join of good segments is not `"/"`. -/
theorem joinSlash_ne_slash : ∀ segs : List (List Char), segs ≠ [] →
    (∀ s ∈ segs, s ≠ [] ∧ '/' ∉ s) → joinSlash segs ≠ ['/']
  | [], h, _ => absurd rfl h
  | [s], _, hp => by
    intro h
    have hs := hp s (by simp)
    rw [show joinSlash [s] = s from rfl] at h
    rw [h] at hs
    exact hs.2 (by simp)
  | s :: s2 :: ss, _, hp => by
    simp only [joinSlash]
    intro h
    have hs := (hp s (by simp)).1
    cases s with
    | nil => exact hs rfl
    | cons a s0 =>
      have hlen := congrArg List.length h
      simp [List.length_append] at hlen

/-- The join of good segments does not start with a separator. -/
theorem joinSlash_head_ne_slash (s : List Char) (ss : List (List Char))
    (hs : s ≠ []) (hns : '/' ∉ s) : ¬((joinSlash (s :: ss)).head? = some '/') := by
  rw [joinSlash_head? s ss hs]
  cases s with
  | nil => exact absurd rfl hs
  | cons a s0 =>
    simp only [List.head?]
    intro h
    injection h with h
    exact hns (h ▸ List.mem_cons_self a s0)

/-- Every output of `normalizeChars` is either empty or the join of a
non-empty good segment list. -/
theorem normalizeChars_shape (p : List Char) :
    normalizeChars p = [] ∨
    ∃ segs, segs ≠ [] ∧ goodSegs segs ∧ normalizeChars p = joinSlash segs := by
  by_cases hsp : p = [] ∨ p = ['.'] ∨ p = ['/']
  · left
    simp [normalizeChars, hsp]
  · have hpne : ¬(p = []) := fun h => hsp (Or.inl h)
    by_cases hr : p.head? = some '/'
    · by_cases hseg : cleanSegs true [] (splitSlash p) = []
      · have hc : cleanChars p = ['/'] := by
          simp only [cleanChars]
          rw [if_neg hpne, if_pos hr, if_pos hseg]
        have hv : trimTrailSlash (trimLeadSlash (cleanChars p)) = [] := by
          rw [hc]
          rfl
        left
        simp only [normalizeChars]
        rw [if_neg hsp, hv]
        rfl
      · have hgood : goodSegs (cleanSegs true [] (splitSlash p)) :=
          cleanSegs_accGood true (splitSlash p) [] (splitSlash_no_slash p)
            ⟨[], 0, by simp, by simp, fun _ => rfl⟩
        have hmem := goodSegs_members _ hgood
        have hc : cleanChars p = '/' :: joinSlash (cleanSegs true [] (splitSlash p)) := by
          simp only [cleanChars]
          rw [if_neg hpne, if_pos hr, if_neg hseg]
        right
        refine ⟨cleanSegs true [] (splitSlash p), hseg, hgood, ?_⟩
        have hlead : trimLeadSlash (cleanChars p)
            = joinSlash (cleanSegs true [] (splitSlash p)) := by
          rw [hc]
          simp [trimLeadSlash]
        have hne2 : ¬((joinSlash (cleanSegs true [] (splitSlash p))).getLast? = some '/') :=
          fun hcon => joinSlash_getLast_ne_slash _ hseg
            (fun x hx => ⟨(hmem x hx).1, (hmem x hx).2.2⟩) '/' hcon rfl
        have htrail : trimTrailSlash (joinSlash (cleanSegs true [] (splitSlash p)))
            = joinSlash (cleanSegs true [] (splitSlash p)) := by
          unfold trimTrailSlash
          rw [if_neg hne2]
        have hdot : joinSlash (cleanSegs true [] (splitSlash p)) ≠ ['.'] :=
          joinSlash_ne_dot _ hseg (fun x hx => ⟨(hmem x hx).1, (hmem x hx).2.1⟩)
        simp only [normalizeChars]
        rw [if_neg hsp, hlead, htrail, if_neg hdot]
    · by_cases hseg : cleanSegs false [] (splitSlash p) = []
      · have hc : cleanChars p = ['.'] := by
          simp only [cleanChars]
          rw [if_neg hpne, if_neg hr, if_pos hseg]
        have hv : trimTrailSlash (trimLeadSlash (cleanChars p)) = ['.'] := by
          rw [hc]
          rfl
        left
        simp only [normalizeChars]
        rw [if_neg hsp, hv]
        rfl
      · have hgood : goodSegs (cleanSegs false [] (splitSlash p)) :=
          cleanSegs_accGood false (splitSlash p) [] (splitSlash_no_slash p)
            ⟨[], 0, by simp, by simp, fun h => absurd h (by simp)⟩
        have hmem := goodSegs_members _ hgood
        obtain ⟨s0, ss0, hs0⟩ : ∃ s0 ss0, cleanSegs false [] (splitSlash p) = s0 :: ss0 := by
          cases hx : cleanSegs false [] (splitSlash p) with
          | nil => exact absurd hx hseg
          | cons a l => exact ⟨a, l, rfl⟩
        have hc : cleanChars p = joinSlash (cleanSegs false [] (splitSlash p)) := by
          simp only [cleanChars]
          rw [if_neg hpne, if_neg hr, if_neg hseg]
        right
        refine ⟨cleanSegs false [] (splitSlash p), hseg, hgood, ?_⟩
        have hhead : ¬((joinSlash (cleanSegs false [] (splitSlash p))).head? = some '/') := by
          rw [hs0]
          exact joinSlash_head_ne_slash s0 ss0
            (hmem s0 (by rw [hs0]; simp)).1 (hmem s0 (by rw [hs0]; simp)).2.2
        have hlead : trimLeadSlash (cleanChars p)
            = joinSlash (cleanSegs false [] (splitSlash p)) := by
          rw [hc]
          unfold trimLeadSlash
          rw [if_neg hhead]
        have hne2 : ¬((joinSlash (cleanSegs false [] (splitSlash p))).getLast? = some '/') :=
          fun hcon => joinSlash_getLast_ne_slash _ hseg
            (fun x hx => ⟨(hmem x hx).1, (hmem x hx).2.2⟩) '/' hcon rfl
        have htrail : trimTrailSlash (joinSlash (cleanSegs false [] (splitSlash p)))
            = joinSlash (cleanSegs false [] (splitSlash p)) := by
          unfold trimTrailSlash
          rw [if_neg hne2]
        have hdot : joinSlash (cleanSegs false [] (splitSlash p)) ≠ ['.'] :=
          joinSlash_ne_dot _ hseg (fun x hx => ⟨(hmem x hx).1, (hmem x hx).2.1⟩)
        simp only [normalizeChars]
        rw [if_neg hsp, hlead, htrail, if_neg hdot]

/-- `normalizeChars` is the identity on joins of good segment lists. -/
theorem normalizeChars_fix (segs : List (List Char)) (hne : segs ≠ [])
    (hgood : goodSegs segs) : normalizeChars (joinSlash segs) = joinSlash segs := by
  have hmem := goodSegs_members segs hgood
  obtain ⟨s0, ss0, rfl⟩ : ∃ s0 ss0, segs = s0 :: ss0 := by
    cases segs with
    | nil => exact absurd rfl hne
    | cons a l => exact ⟨a, l, rfl⟩
  have hs0 := hmem s0 (by simp)
  have hrne : joinSlash (s0 :: ss0) ≠ [] := joinSlash_ne_nil s0 ss0 hs0.1
  have hrdot : joinSlash (s0 :: ss0) ≠ ['.'] :=
    joinSlash_ne_dot _ (by simp) (fun x hx => ⟨(hmem x hx).1, (hmem x hx).2.1⟩)
  have hrslash : joinSlash (s0 :: ss0) ≠ ['/'] :=
    joinSlash_ne_slash _ (by simp) (fun x hx => ⟨(hmem x hx).1, (hmem x hx).2.2⟩)
  have hsp : ¬(joinSlash (s0 :: ss0) = [] ∨ joinSlash (s0 :: ss0) = ['.']
        ∨ joinSlash (s0 :: ss0) = ['/']) := by
    rintro (h | h | h)
    exacts [hrne h, hrdot h, hrslash h]
  have hhead : ¬((joinSlash (s0 :: ss0)).head? = some '/') :=
    joinSlash_head_ne_slash s0 ss0 hs0.1 hs0.2.2
  have hsplit : splitSlash (joinSlash (s0 :: ss0)) = s0 :: ss0 :=
    splitSlash_joinSlash _ (by simp) (fun x hx => (hmem x hx).2.2)
  have hclean0 : cleanSegs false [] (splitSlash (joinSlash (s0 :: ss0))) = s0 :: ss0 := by
    rw [hsplit]
    exact cleanSegs_id _ hgood
  have hc : cleanChars (joinSlash (s0 :: ss0)) = joinSlash (s0 :: ss0) := by
    simp only [cleanChars]
    rw [if_neg hrne, if_neg hhead, hclean0]
    rw [if_neg (by simp : ¬(s0 :: ss0 = ([] : List (List Char))))]
  have hlead : trimLeadSlash (joinSlash (s0 :: ss0)) = joinSlash (s0 :: ss0) := by
    unfold trimLeadSlash
    rw [if_neg hhead]
  have htrail : trimTrailSlash (joinSlash (s0 :: ss0)) = joinSlash (s0 :: ss0) := by
    have hne2 : ¬((joinSlash (s0 :: ss0)).getLast? = some '/') := fun hcon =>
      joinSlash_getLast_ne_slash _ (by simp)
        (fun x hx => ⟨(hmem x hx).1, (hmem x hx).2.2⟩) '/' hcon rfl
    unfold trimTrailSlash
    rw [if_neg hne2]
  simp only [normalizeChars]
  rw [if_neg hsp, hc, hlead, htrail, if_neg hrdot]

/-- `normalizeChars` is idempotent. -/
theorem normalizeChars_idem (l : List Char) :
    normalizeChars (normalizeChars l) = normalizeChars l := by
  rcases normalizeChars_shape l with h | ⟨segs, hne, hgood, heq⟩
  · rw [h]
    rfl
  · rw [heq]
    exact normalizeChars_fix segs hne hgood

/-- C7: path normalization is a total function, idempotent on every
input string, and maps `""`, `"."` and `"/"` to the empty (root)
path. -/
theorem C7_normalize_idempotent :
    (∀ p : String, normalizePath (normalizePath p) = normalizePath p)
  ∧ normalizePath "" = "" ∧ normalizePath "." = "" ∧ normalizePath "/" = "" := by
  refine ⟨?_, by decide, by decide, by decide⟩
  intro p
  exact congrArg String.mk (normalizeChars_idem p.data)

end BlobCli
